import Mathlib

/-!
Verification development for the BVH spatial index of the Fujiyama renderer
(`src/BVHAccelerator.c`).  The C code is shallowly embedded: machine doubles
become exact rationals, the in-place builder becomes a function on lists of
primitive records, and the iterative traversal's explicit stack becomes a
`List` of nodes with an explicit fuel argument (the C loop terminates because
a well-founded measure decreases; the fuel is always chosen large enough and
lemmas prove it is never exhausted on the inputs the C code can see).

External collaborators that are not part of the sources (`Box.c`,
`Intersection.h`, `PrimitiveSet`) are either parameters of the embedding
(the ray-box test `bh`, the primitive intersection callback `pr`) or are
modelled from the spec where noted.
-/

namespace FjBVH

/-- Three rational coordinates, modelling a `double[3]` / `struct Vector`. -/
structure Vec3 where
  x : ℚ
  y : ℚ
  z : ℚ
deriving DecidableEq

/-- Modelled from the spec: `Box.c` is not among the sources; the spec (section 3)
describes a bounding box as min/max corners with `min <= max` componentwise. -/
structure Box where
  bmin : Vec3
  bmax : Vec3
deriving DecidableEq

/-- Modelled from the spec: `BoxAddBox` from the missing `Box.c` is described by
the spec as box union (componentwise min of the min corners, max of the max
corners), used by `build_bvh` to combine the two children's bounds. -/
def BoxAddBox (dst src : Box) : Box :=
  ⟨⟨min dst.bmin.x src.bmin.x, min dst.bmin.y src.bmin.y, min dst.bmin.z src.bmin.z⟩,
   ⟨max dst.bmax.x src.bmax.x, max dst.bmax.y src.bmax.y, max dst.bmax.z src.bmax.z⟩⟩

/-- Modelled from the spec: `Intersection.h` is not among the sources; the spec
(section 6) says an `Intersection` carries at least `t_hit` plus an opaque
payload (position, normal, object reference, ...) that the index forwards
unmodified.  The opaque payload is collapsed into one natural number. -/
structure Isect where
  t_hit : ℚ
  payload : ℕ
deriving DecidableEq

/-- `FLT_MAX` from `<float.h>`, the sentinel the traversal uses for
"no hit yet": `(2 - 2^-23) * 2^127`. -/
def FLT_MAX : ℚ := 2 ^ 128 - 2 ^ 104

/-- Build-time primitive record (`struct Primitive`): bounds, centroid and the
original index in the primitive set. -/
structure Prim where
  bounds : Box
  centroid : Vec3
  index : Int
deriving DecidableEq

/-- Component access `centroid[axis]` for `axis` in `{0,1,2}`.  The C code only
ever passes 0, 1 or 2 (other values hit `assert(!"invalid axis")`). -/
def cAxis (v : Vec3) : Nat → ℚ
  | 0 => v.x
  | 1 => v.y
  | _ => v.z

/-- Comparator selected by `build_bvh`'s `switch (axis)`: ascending order of
`centroid[axis]`, as `primitive_compare_x/y/z` implement via `compare_double`. -/
def primLE (axis : Nat) (a b : Prim) : Bool :=
  decide (cAxis a.centroid axis ≤ cAxis b.centroid axis)

/-- Insert into a list keeping elements ordered by `le`.  Together with
`sort_by` this models the `qsort` call in `build_bvh`: `qsort` promises some
comparator-consistent reordering (ties in unspecified order), and insertion
sort is one valid such outcome. -/
def insert_by (le : Prim → Prim → Bool) (p : Prim) : List Prim → List Prim
  | [] => [p]
  | q :: qs => if le p q then p :: q :: qs else q :: insert_by le p qs

/-- Model of `qsort(primptrs + begin, NPRIMS, ..., primitive_compare)`. -/
def sort_by (le : Prim → Prim → Bool) (l : List Prim) : List Prim :=
  l.foldr (insert_by le) []

theorem insert_by_perm (le : Prim → Prim → Bool) (p : Prim) (l : List Prim) :
    (insert_by le p l).Perm (p :: l) := by
  induction l with
  | nil => simp [insert_by]
  | cons q qs ih =>
    simp only [insert_by]
    split
    · exact List.Perm.refl _
    · exact (ih.cons q).trans (List.Perm.swap p q qs)

theorem sort_by_perm (le : Prim → Prim → Bool) (l : List Prim) :
    (sort_by le l).Perm l := by
  induction l with
  | nil => simp [sort_by]
  | cons p ps ih =>
    simpa [sort_by] using (insert_by_perm le p (sort_by le ps)).trans (ih.cons p)

theorem sort_by_length (le : Prim → Prim → Bool) (l : List Prim) :
    (sort_by le l).length = l.length :=
  (sort_by_perm le l).length_eq

/-- Array access `prims[i]`; the C code only indexes inside the valid range, so
the default is never observed on the executions the claims quantify over. -/
def primAt (prims : List Prim) (i : Nat) : Prim :=
  prims.getD i ⟨⟨⟨0,0,0⟩, ⟨0,0,0⟩⟩, ⟨0,0,0⟩, 0⟩

/-- The `while (low != mid)` loop of `find_median`.  One C iteration computes
`mid = (low + high) / 2` and either sets `high = mid` and re-tests the guard
(the `key < c mid` branch), or terminates returning the current `mid`: both the
`c mid < key` branch (which sets `low = mid`, immediately falsifying the
`low != mid` guard) and the `break` branch leave the loop with that `mid`.
The fuel argument makes the recursion structural; `find_median` passes enough
fuel that it is never exhausted (`fm_loop_fuel` lemmas below). -/
def fm_loop (key : ℚ) (c : Nat → ℚ) : Nat → Nat → Nat → Nat
  | 0, low, high => (low + high) / 2
  | fuel + 1, low, high =>
    if key < c ((low + high) / 2) then
      if low = (low + high) / 2 then (low + high) / 2
      else fm_loop key c fuel low ((low + high) / 2)
    else (low + high) / 2

theorem fm_loop_ge (key : ℚ) (c : Nat → ℚ) :
    ∀ fuel low high, low ≤ high → low ≤ fm_loop key c fuel low high := by
  intro fuel
  induction fuel with
  | zero => intro low high h; simp only [fm_loop]; omega
  | succ n ih =>
    intro low high h
    simp only [fm_loop]
    split
    · split
      · omega
      · exact ih low ((low + high) / 2) (by omega)
    · omega

theorem fm_loop_lt (key : ℚ) (c : Nat → ℚ) :
    ∀ fuel low high, low < high → fm_loop key c fuel low high < high := by
  intro fuel
  induction fuel with
  | zero => intro low high h; simp only [fm_loop]; omega
  | succ n ih =>
    intro low high h
    simp only [fm_loop]
    split
    · split
      · omega
      · have hlm : low < (low + high) / 2 := by
          rename_i hne
          omega
        exact lt_trans (ih low ((low + high) / 2) hlm) (by omega)
    · omega

theorem fm_loop_le_mid (key : ℚ) (c : Nat → ℚ) :
    ∀ fuel low high, low ≤ high → fm_loop key c fuel low high ≤ (low + high) / 2 := by
  intro fuel
  induction fuel with
  | zero => intro low high _; simp [fm_loop]
  | succ n ih =>
    intro low high h
    simp only [fm_loop]
    split
    · split
      · omega
      · exact le_trans (ih low ((low + high) / 2) (by omega)) (by omega)
    · omega

/-- `find_median(prims, begin, end, axis)`: binary search between the first and
last centroid for the position nearest the midpoint `key` of their values,
returning `mid + 1` as the split position.  `low = begin`, `high = end - 1`;
the sentinel `mid = -1` only guarantees the loop body runs at least once,
which the fueled loop does as well. -/
def find_median (prims : List Prim) (b e : Nat) (axis : Nat) : Nat :=
  fm_loop ((cAxis (primAt prims b).centroid axis +
            cAxis (primAt prims (e - 1)).centroid axis) / 2)
    (fun i => cAxis (primAt prims i).centroid axis) e b (e - 1) + 1

theorem find_median_gt (prims : List Prim) (b e axis : Nat) (h : b + 2 ≤ e) :
    b < find_median prims b e axis := by
  have := fm_loop_ge ((cAxis (primAt prims b).centroid axis +
      cAxis (primAt prims (e - 1)).centroid axis) / 2)
    (fun i => cAxis (primAt prims i).centroid axis) e b (e - 1) (by omega)
  unfold find_median
  omega

theorem find_median_lt (prims : List Prim) (b e axis : Nat) (h : b + 2 ≤ e) :
    find_median prims b e axis < e := by
  have := fm_loop_lt ((cAxis (primAt prims b).centroid axis +
      cAxis (primAt prims (e - 1)).centroid axis) / 2)
    (fun i => cAxis (primAt prims i).centroid axis) e b (e - 1) (by omega)
  unfold find_median
  omega

theorem find_median_le_half (prims : List Prim) (b e axis : Nat) (h : b + 2 ≤ e) :
    find_median prims b e axis ≤ (b + (e - 1)) / 2 + 1 := by
  have := fm_loop_le_mid ((cAxis (primAt prims b).centroid axis +
      cAxis (primAt prims (e - 1)).centroid axis) / 2)
    (fun i => cAxis (primAt prims i).centroid axis) e b (e - 1) (by omega)
  unfold find_median
  omega

/-- `struct BVHNode`: the C struct has two child pointers, bounds, and
`prim_id` (`-1` meaning "no primitive").  A complete tree only ever contains
nodes with either both children `NULL` (constructor `leaf`) or both children
present (constructor `node`); intermediate build states never escape
`build_bvh`.  Both constructors keep the `prim_id` field so that the builder's
sentinel discipline (`new_bvhnode` initializes it to `-1` and only the leaf
branch overwrites it) remains visible. -/
inductive BVHNode where
  | leaf (bounds : Box) (prim_id : Int)
  | node (left : BVHNode) (right : BVHNode) (bounds : Box) (prim_id : Int)
deriving DecidableEq

/-- The `bounds` field of a node. -/
def nodeBounds : BVHNode → Box
  | .leaf b _ => b
  | .node _ _ b _ => b

/-- The `prim_id` field of a node. -/
def nodePrimId : BVHNode → Int
  | .leaf _ i => i
  | .node _ _ _ i => i

/-- `is_bvh_leaf`: both children `NULL` and `prim_id != -1`. -/
def is_bvh_leaf : BVHNode → Bool
  | .leaf _ i => i != -1
  | .node _ _ _ _ => false

/-- The next axis chosen by `build_bvh`'s `switch (axis)`: 0 -> 1 -> 2 -> 0.
Other axis values hit `assert(!"invalid axis")` in C and never occur. -/
def new_axis : Nat → Nat
  | 0 => 1
  | 1 => 2
  | _ => 0

/-- The split position `build_bvh` computes for a range: sort the range by
`centroid[axis]` with `qsort`, then call `find_median` on the whole sorted
range. -/
def median_of (axis : Nat) (l : List Prim) : Nat :=
  find_median (sort_by (primLE axis) l) 0 (sort_by (primLE axis) l).length axis

/-- The left part `[begin, median)` of the sorted range. -/
def splitL (axis : Nat) (l : List Prim) : List Prim :=
  (sort_by (primLE axis) l).take (median_of axis l)

/-- The right part `[median, end)` of the sorted range. -/
def splitR (axis : Nat) (l : List Prim) : List Prim :=
  (sort_by (primLE axis) l).drop (median_of axis l)

/-- `build_bvh(primptrs, begin, end, axis)` over the list of records in
`[begin, end)`.  The range with exactly one element becomes a leaf carrying
that record's bounds and original index; otherwise the range is sorted by
`centroid[axis]`, split at `find_median`, and both parts are built with the
rotated axis; the node's bounds are the union of the children's bounds and its
`prim_id` keeps the `-1` put there by `new_bvhnode`.  The fuel argument makes
the recursion structural: every recursive call strictly shrinks the list, so
fuel `>=` list length is never exhausted (allocation failure, the only other
exit of the C function, is modelled separately by `build_bvh_alloc`).  An
empty range never occurs when the documented precondition `count() >= 1`
holds; its result here is an arbitrary junk leaf (the C code would read
`prims[-1]`, undefined behavior). -/
def build_bvh : Nat → List Prim → Nat → BVHNode
  | 0, _, _ => .leaf ⟨⟨0,0,0⟩, ⟨0,0,0⟩⟩ (-1)
  | _ + 1, [], _ => .leaf ⟨⟨0,0,0⟩, ⟨0,0,0⟩⟩ (-1)
  | _ + 1, [p], _ => .leaf p.bounds p.index
  | fuel + 1, p0 :: p1 :: rest, axis =>
    .node (build_bvh fuel (splitL axis (p0 :: p1 :: rest)) (new_axis axis))
          (build_bvh fuel (splitR axis (p0 :: p1 :: rest)) (new_axis axis))
          (BoxAddBox
            (nodeBounds (build_bvh fuel (splitL axis (p0 :: p1 :: rest)) (new_axis axis)))
            (nodeBounds (build_bvh fuel (splitR axis (p0 :: p1 :: rest)) (new_axis axis))))
          (-1)

/-- The primitive record `build_bvh_accel` creates for index `i`: bounds from
the primitive set, centroid the midpoint of the bounds, original index `i`. -/
def mkPrim (pBounds : Nat → Box) (i : Nat) : Prim :=
  ⟨pBounds i,
   ⟨((pBounds i).bmax.x + (pBounds i).bmin.x) / 2,
    ((pBounds i).bmax.y + (pBounds i).bmin.y) / 2,
    ((pBounds i).bmax.z + (pBounds i).bmin.z) / 2⟩,
   (i : Int)⟩

/-- The array of primitive records `build_bvh_accel` builds before calling
`build_bvh(primptrs, 0, NPRIMS, 0)`. -/
def mkPrims (N : Nat) (pBounds : Nat → Box) : List Prim :=
  (List.range N).map (mkPrim pBounds)

/-- `build_bvh_accel` on a primitive set with `N` primitives whose bounds are
given by `pBounds`, in the run where every allocation succeeds: the root the
accelerator stores.  Fuel `N` covers the whole recursion. -/
def build_bvh_accel (N : Nat) (pBounds : Nat → Box) : BVHNode :=
  build_bvh N (mkPrims N pBounds) 0

/-- Number of leaves of a tree. -/
def leafCount : BVHNode → Nat
  | .leaf _ _ => 1
  | .node l r _ _ => leafCount l + leafCount r

/-- Number of internal nodes of a tree. -/
def internalCount : BVHNode → Nat
  | .leaf _ _ => 0
  | .node l r _ _ => internalCount l + internalCount r + 1

/-- The `prim_id`s of the leaves, left to right. -/
def leafIds : BVHNode → List Int
  | .leaf _ i => [i]
  | .node l r _ _ => leafIds l ++ leafIds r

/-- The `(bounds, prim_id)` pairs of the leaves, left to right. -/
def leafRecs : BVHNode → List (Box × Int)
  | .leaf b i => [(b, i)]
  | .node l r _ _ => leafRecs l ++ leafRecs r

/-- All nodes of a tree (the node itself and, recursively, its children). -/
def subnodes : BVHNode → List BVHNode
  | .leaf b i => [.leaf b i]
  | .node l r b i => .node l r b i :: (subnodes l ++ subnodes r)

/-- Total number of nodes, the termination measure of the traversal loop. -/
def bvh_size : BVHNode → Nat
  | .leaf _ _ => 1
  | .node l r _ _ => bvh_size l + bvh_size r + 1

theorem bvh_size_pos (t : BVHNode) : 1 ≤ bvh_size t := by
  cases t <;> simp [bvh_size]

theorem leafIds_eq_map_leafRecs (t : BVHNode) :
    leafIds t = (leafRecs t).map Prod.snd := by
  induction t with
  | leaf b i => simp [leafIds, leafRecs]
  | node l r b i ihl ihr => simp [leafIds, leafRecs, ihl, ihr]

theorem leafCount_eq_length_leafRecs (t : BVHNode) :
    leafCount t = (leafRecs t).length := by
  induction t with
  | leaf b i => simp [leafCount, leafRecs]
  | node l r b i ihl ihr => simp [leafCount, leafRecs, ihl, ihr]

theorem leaf_mem_subnodes_iff (t : BVHNode) (b : Box) (i : Int) :
    BVHNode.leaf b i ∈ subnodes t ↔ (b, i) ∈ leafRecs t := by
  induction t with
  | leaf b' i' => simp [subnodes, leafRecs]
  | node l r b' i' ihl ihr => simp [subnodes, leafRecs, ihl, ihr]

/-- Size facts for the recursive case of `build_bvh`: the median splits a
range of `n >= 2` records into two nonempty, strictly shorter parts, the left
one at most `(n + 1) / 2` long. -/
theorem split_facts (p0 p1 : Prim) (rest : List Prim) (axis : Nat) :
    (splitL axis (p0 :: p1 :: rest)).length = median_of axis (p0 :: p1 :: rest) ∧
    (splitR axis (p0 :: p1 :: rest)).length =
      rest.length + 2 - median_of axis (p0 :: p1 :: rest) ∧
    0 < median_of axis (p0 :: p1 :: rest) ∧
    median_of axis (p0 :: p1 :: rest) < rest.length + 2 ∧
    median_of axis (p0 :: p1 :: rest) ≤ (rest.length + 3) / 2 := by
  have hlen : (sort_by (primLE axis) (p0 :: p1 :: rest)).length = rest.length + 2 := by
    simpa using sort_by_length (primLE axis) (p0 :: p1 :: rest)
  have h2 : 0 + 2 ≤ (sort_by (primLE axis) (p0 :: p1 :: rest)).length := by omega
  have hgt : 0 < median_of axis (p0 :: p1 :: rest) :=
    find_median_gt (sort_by (primLE axis) (p0 :: p1 :: rest)) 0
      (sort_by (primLE axis) (p0 :: p1 :: rest)).length axis h2
  have hlt : median_of axis (p0 :: p1 :: rest) <
      (sort_by (primLE axis) (p0 :: p1 :: rest)).length :=
    find_median_lt (sort_by (primLE axis) (p0 :: p1 :: rest)) 0
      (sort_by (primLE axis) (p0 :: p1 :: rest)).length axis h2
  have hhalf : median_of axis (p0 :: p1 :: rest) ≤
      (0 + ((sort_by (primLE axis) (p0 :: p1 :: rest)).length - 1)) / 2 + 1 :=
    find_median_le_half (sort_by (primLE axis) (p0 :: p1 :: rest)) 0
      (sort_by (primLE axis) (p0 :: p1 :: rest)).length axis h2
  refine ⟨?_, ?_, hgt, by omega, by omega⟩
  · simp only [splitL, List.length_take]
    omega
  · simp only [splitR, List.length_drop]
    omega

theorem splitL_append_splitR (axis : Nat) (l : List Prim) :
    splitL axis l ++ splitR axis l = sort_by (primLE axis) l := by
  simp [splitL, splitR]

theorem build_leafRecs_perm :
    ∀ fuel (prims : List Prim) (axis : Nat), prims ≠ [] → prims.length ≤ fuel →
      (leafRecs (build_bvh fuel prims axis)).Perm
        (prims.map fun p => (p.bounds, p.index)) := by
  intro fuel
  induction fuel with
  | zero =>
    intro prims axis hne hlen
    cases prims with
    | nil => exact absurd rfl hne
    | cons p ps => simp at hlen
  | succ fuel ih =>
    intro prims axis hne hlen
    match prims with
    | [p] => simp [build_bvh, leafRecs]
    | p0 :: p1 :: rest =>
      obtain ⟨hL, hR, hm0, hmlt, _⟩ := split_facts p0 p1 rest axis
      have hslen : rest.length + 2 ≤ fuel + 1 := by simpa using hlen
      have htne : splitL axis (p0 :: p1 :: rest) ≠ [] := by
        intro h; rw [← List.length_eq_zero] at h; omega
      have hdne : splitR axis (p0 :: p1 :: rest) ≠ [] := by
        intro h; rw [← List.length_eq_zero] at h; omega
      have h1 := ih (splitL axis (p0 :: p1 :: rest)) (new_axis axis) htne (by omega)
      have h2 := ih (splitR axis (p0 :: p1 :: rest)) (new_axis axis) hdne (by omega)
      simp only [build_bvh, leafRecs]
      have hcat : (leafRecs (build_bvh fuel (splitL axis (p0 :: p1 :: rest)) (new_axis axis)) ++
          leafRecs (build_bvh fuel (splitR axis (p0 :: p1 :: rest)) (new_axis axis))).Perm
          ((splitL axis (p0 :: p1 :: rest) ++ splitR axis (p0 :: p1 :: rest)).map
            fun p => (p.bounds, p.index)) := by
        rw [List.map_append]
        exact h1.append h2
      refine hcat.trans ?_
      rw [splitL_append_splitR]
      exact (sort_by_perm (primLE axis) (p0 :: p1 :: rest)).map _

theorem build_counts :
    ∀ fuel (prims : List Prim) (axis : Nat), prims ≠ [] → prims.length ≤ fuel →
      leafCount (build_bvh fuel prims axis) = prims.length ∧
      internalCount (build_bvh fuel prims axis) = prims.length - 1 := by
  intro fuel
  induction fuel with
  | zero =>
    intro prims axis hne hlen
    cases prims with
    | nil => exact absurd rfl hne
    | cons p ps => simp at hlen
  | succ fuel ih =>
    intro prims axis hne hlen
    match prims with
    | [p] => simp [build_bvh, leafCount, internalCount]
    | p0 :: p1 :: rest =>
      obtain ⟨hL, hR, hm0, hmlt, _⟩ := split_facts p0 p1 rest axis
      have hslen : rest.length + 2 ≤ fuel + 1 := by simpa using hlen
      have htne : splitL axis (p0 :: p1 :: rest) ≠ [] := by
        intro h; rw [← List.length_eq_zero] at h; omega
      have hdne : splitR axis (p0 :: p1 :: rest) ≠ [] := by
        intro h; rw [← List.length_eq_zero] at h; omega
      have h1 := ih (splitL axis (p0 :: p1 :: rest)) (new_axis axis) htne (by omega)
      have h2 := ih (splitR axis (p0 :: p1 :: rest)) (new_axis axis) hdne (by omega)
      simp only [build_bvh, leafCount, internalCount, List.length_cons]
      omega

/-- Every internal node of a built tree has the `-1` sentinel left by
`new_bvhnode` and bounds equal to the union of its children's bounds. -/
theorem build_internal_invariant :
    ∀ fuel (prims : List Prim) (axis : Nat), prims.length ≤ fuel →
      ∀ l r b i, BVHNode.node l r b i ∈ subnodes (build_bvh fuel prims axis) →
        i = -1 ∧ b = BoxAddBox (nodeBounds l) (nodeBounds r) := by
  intro fuel
  induction fuel with
  | zero =>
    intro prims axis hlen l r b i hmem
    cases prims with
    | nil => simp [build_bvh, subnodes] at hmem
    | cons p ps => simp at hlen
  | succ fuel ih =>
    intro prims axis hlen l r b i hmem
    match prims with
    | [] => simp [build_bvh, subnodes] at hmem
    | [p] => simp [build_bvh, subnodes] at hmem
    | p0 :: p1 :: rest =>
      obtain ⟨hL, hR, hm0, hmlt, _⟩ := split_facts p0 p1 rest axis
      have hslen : rest.length + 2 ≤ fuel + 1 := by simpa using hlen
      simp only [build_bvh, subnodes] at hmem
      rcases List.mem_cons.mp hmem with heq | hmem'
      · cases heq
        exact ⟨rfl, rfl⟩
      · rcases List.mem_append.mp hmem' with h | h
        · exact ih (splitL axis (p0 :: p1 :: rest)) (new_axis axis) (by omega) l r b i h
        · exact ih (splitR axis (p0 :: p1 :: rest)) (new_axis axis) (by omega) l r b i h

/-- Worst-case number of pending stack entries the traversal can accumulate
while visiting a tree: descending left at a both-hit internal node leaves the
right child pending. -/
def bnd : BVHNode → Nat
  | .leaf _ _ => 0
  | .node l r _ _ => max (1 + bnd l) (bnd r)

/-- Logarithmic bound driven by the builder's split guarantee
(`find_median_le_half`): the left part of a split of `n` primitives has at
most `(n + 1) / 2` of them. -/
def stkBound (n : Nat) : Nat :=
  if n ≤ 1 then 0 else stkBound ((n + 1) / 2) + 1
termination_by n
decreasing_by omega

theorem stkBound_mono : ∀ b a, a ≤ b → stkBound a ≤ stkBound b := by
  intro b
  induction b using Nat.strong_induction_on with
  | _ b ihb =>
    intro a hab
    by_cases ha : a ≤ 1
    · rw [stkBound]
      simp [ha]
    · have hb : ¬ b ≤ 1 := by omega
      rw [stkBound, show stkBound b = stkBound ((b + 1) / 2) + 1 from by rw [stkBound]; simp [hb]]
      simp only [ha, if_false]
      have := ihb ((b + 1) / 2) (by omega) ((a + 1) / 2) (by omega)
      omega

theorem stkBound_le_of_le_pow : ∀ k n, n ≤ 2 ^ k → stkBound n ≤ k := by
  intro k
  induction k with
  | zero =>
    intro n hn
    rw [stkBound]
    simp at hn
    simp [hn]
  | succ k ihk =>
    intro n hn
    by_cases h1 : n ≤ 1
    · rw [stkBound]; simp [h1]
    · rw [stkBound]
      simp only [h1, if_false]
      have : (n + 1) / 2 ≤ 2 ^ k := by
        have : 2 ^ (k + 1) = 2 * 2 ^ k := by ring
        omega
      have := ihk ((n + 1) / 2) this
      omega

theorem bnd_build :
    ∀ fuel (prims : List Prim) (axis : Nat), prims.length ≤ fuel →
      bnd (build_bvh fuel prims axis) ≤ stkBound prims.length := by
  intro fuel
  induction fuel with
  | zero =>
    intro prims axis hlen
    cases prims with
    | nil => simp [build_bvh, bnd]
    | cons p ps => simp at hlen
  | succ fuel ih =>
    intro prims axis hlen
    match prims with
    | [] => simp [build_bvh, bnd]
    | [p] => simp [build_bvh, bnd]
    | p0 :: p1 :: rest =>
      obtain ⟨hL, hR, hm0, hmlt, hhalf⟩ := split_facts p0 p1 rest axis
      have hslen : rest.length + 2 ≤ fuel + 1 := by simpa using hlen
      have h1 := ih (splitL axis (p0 :: p1 :: rest)) (new_axis axis) (by omega)
      have h2 := ih (splitR axis (p0 :: p1 :: rest)) (new_axis axis) (by omega)
      have hl : bnd (build_bvh fuel (splitL axis (p0 :: p1 :: rest)) (new_axis axis)) ≤
          stkBound ((rest.length + 3) / 2) := by
        refine le_trans h1 (stkBound_mono _ _ ?_)
        omega
      have hr : bnd (build_bvh fuel (splitR axis (p0 :: p1 :: rest)) (new_axis axis)) ≤
          stkBound (rest.length + 1) := by
        refine le_trans h2 (stkBound_mono _ _ ?_)
        omega
      have hrec : stkBound (rest.length + 2) = stkBound ((rest.length + 3) / 2) + 1 := by
        rw [stkBound]
        have hgt : ¬ rest.length + 2 ≤ 1 := by omega
        simp only [hgt, if_false]
      have hmono : stkBound (rest.length + 1) ≤ stkBound (rest.length + 2) :=
        stkBound_mono _ _ (by omega)
      simp only [build_bvh, bnd, List.length_cons]
      have hgoal : rest.length + 1 + 1 = rest.length + 2 := by omega
      rw [hgoal, hrec]
      omega

/-! ## Traversal

The two external collaborators of the traversal are parameters:
`bh : Box → Bool` is `BoxRayIntersect` with the ray and its `[tmin, tmax]`
interval fixed (the entry/exit parameters `boxhit_tmin`/`boxhit_tmax` are
computed but never read by the traversal, so only the hit flag is modelled),
and `pr : Int → Option Isect` is `PrmRayIntersect` with ray and time fixed
(`none` = no hit, `some is` = hit with its `t_hit` and payload). -/

/-- `prim_ray_intersect` viewed as a partial function: the hit it reports,
`none` when `PrmRayIntersect` misses or the reported `t_hit` falls outside the
closed interval `[tmin, tmax]`. -/
def prim_ray_intersect (pr : Int → Option Isect) (tmin tmax : ℚ) (i : Int) :
    Option Isect :=
  match pr i with
  | none => none
  | some is => if is.t_hit < tmin ∨ tmax < is.t_hit then none else some is

/-- `prim_ray_intersect` with its effect on the output buffer: on the two
reject paths the C code stores `FLT_MAX` into `isect->t_hit` and returns 0.
When `PrmRayIntersect` itself misses, whatever it may have written to the
buffer is unspecified; the model leaves the payload untouched in that case,
and on an out-of-range hit the buffer holds the rejected hit's payload with
`t_hit` forced to `FLT_MAX`, exactly as the C wrapper leaves it. -/
def prim_ray_write (pr : Int → Option Isect) (tmin tmax : ℚ) (i : Int)
    (buf : Isect) : Bool × Isect :=
  match pr i with
  | none => (false, { buf with t_hit := FLT_MAX })
  | some is =>
    if is.t_hit < tmin ∨ tmax < is.t_hit then (false, { is with t_hit := FLT_MAX })
    else (true, is)

/-- One leaf visit of `intersect_bvh_loop`: intersect the primitive into the
scratch buffer and accept the hit only when its `t_hit` strictly improves on
the best hit so far (the pointer swap makes the accepted hit the new
`isect_min`). -/
def scan_step (pr : Int → Option Isect) (tmin tmax : ℚ) (st : Bool × Isect)
    (i : Int) : Bool × Isect :=
  match prim_ray_intersect pr tmin tmax i with
  | some is => if is.t_hit < st.2.t_hit then (true, is) else st
  | none => st

/-- The loop's leaf visits folded over a list of leaf `prim_id`s in visit
order. -/
def scan_leaves (pr : Int → Option Isect) (tmin tmax : ℚ) (st : Bool × Isect)
    (l : List Int) : Bool × Isect :=
  l.foldl (scan_step pr tmin tmax) st

/-- The leaves `intersect_bvh_loop` visits below a node it is standing on, in
visit order: the loop tests children's boxes before descending, never the box
of the node it already stands on.  A childless node with `prim_id = -1` fails
`is_bvh_leaf` and is popped without a visit (in C this case dereferences NULL
and cannot occur in a built tree). -/
def visitedLeaves (bh : Box → Bool) : BVHNode → List Int
  | .leaf _ i => if i = -1 then [] else [i]
  | .node l r _ _ =>
    (match bh (nodeBounds l) with
      | true => visitedLeaves bh l
      | false => []) ++
    (match bh (nodeBounds r) with
      | true => visitedLeaves bh r
      | false => [])

/-- Leaves pending in the stacked subtrees, top of stack first. -/
def pendVisited (bh : Box → Bool) : List BVHNode → List Int
  | [] => []
  | n :: s => visitedLeaves bh n ++ pendVisited bh s

/-- Result of the instrumented traversal loop: the hit flag and best hit of
the C function, plus two instrumentation fields: the largest stack depth
reached after a push (`stack->depth` peaks) and the `prim_id`s passed to
`prim_ray_intersect`, in call order. -/
structure LoopOut where
  hit : Bool
  best : Isect
  maxDepth : Nat
  visited : List Int
deriving DecidableEq

/-- Sum of subtree sizes on the stack, part of the loop's termination
measure. -/
def stack_size : List BVHNode → Nat
  | [] => 0
  | n :: s => bvh_size n + stack_size s

/-- The body of `intersect_bvh_loop`.  State: current node, explicit stack
(a list, top first, modelling `BVHNodeStack`), the hit flag and `isect_min`,
plus the two instrumentation fields.  Each iteration either visits a leaf and
pops, or tests the two children's boxes and dispatches on `whichhit`
(descend left / descend right / push right and descend left / pop).  The fuel
makes the recursion structural; `intersect_bvh_loop` passes the tree size,
which `intersect_bvh_loop_aux_spec` proves sufficient, since every iteration
strictly shrinks `bvh_size node + stack_size stack`. -/
def intersect_bvh_loop_aux (bh : Box → Bool) (pr : Int → Option Isect)
    (tmin tmax : ℚ) :
    Nat → BVHNode → List BVHNode → Bool → Isect → Nat → List Int → LoopOut
  | 0, _, _, hit, best, maxd, vis => ⟨hit, best, maxd, vis⟩
  | fuel + 1, n, stack, hit, best, maxd, vis =>
    if is_bvh_leaf n then
      match stack with
      | [] => ⟨(scan_step pr tmin tmax (hit, best) (nodePrimId n)).1,
               (scan_step pr tmin tmax (hit, best) (nodePrimId n)).2,
               maxd, vis ++ [nodePrimId n]⟩
      | top :: rest =>
        intersect_bvh_loop_aux bh pr tmin tmax fuel top rest
          (scan_step pr tmin tmax (hit, best) (nodePrimId n)).1
          (scan_step pr tmin tmax (hit, best) (nodePrimId n)).2
          maxd (vis ++ [nodePrimId n])
    else
      match n with
      | .node l r _ _ =>
        match bh (nodeBounds l), bh (nodeBounds r) with
        | true, true =>
          intersect_bvh_loop_aux bh pr tmin tmax fuel l (r :: stack) hit best
            (max maxd (stack.length + 1)) vis
        | true, false =>
          intersect_bvh_loop_aux bh pr tmin tmax fuel l stack hit best maxd vis
        | false, true =>
          intersect_bvh_loop_aux bh pr tmin tmax fuel r stack hit best maxd vis
        | false, false =>
          match stack with
          | [] => ⟨hit, best, maxd, vis⟩
          | top :: rest =>
            intersect_bvh_loop_aux bh pr tmin tmax fuel top rest hit best maxd vis
      | .leaf _ _ =>
        match stack with
        | [] => ⟨hit, best, maxd, vis⟩
        | top :: rest =>
          intersect_bvh_loop_aux bh pr tmin tmax fuel top rest hit best maxd vis

/-- `intersect_bvh_loop`: start at the root with an empty stack,
`isect_min->t_hit = FLT_MAX` (the other `isect_candidates[0]` fields are
uninitialized stack memory; the model fixes the payload to 0, which is never
observable because `*isect` is only written from a fully-stored accepted
hit). -/
def intersect_bvh_loop (bh : Box → Bool) (pr : Int → Option Isect)
    (tmin tmax : ℚ) (root : BVHNode) : LoopOut :=
  intersect_bvh_loop_aux bh pr tmin tmax (bvh_size root) root [] false
    ⟨FLT_MAX, 0⟩ 0 []

/-- `intersect_bvh_accel` with its caller-visible output buffer: the C entry
point takes the `if (1)` branch and runs `intersect_bvh_loop`, which stores
`*isect = *isect_min` only when `hit` is set. -/
def intersect_bvh_accel (bh : Box → Bool) (pr : Int → Option Isect)
    (tmin tmax : ℚ) (root : BVHNode) (isect : Isect) : Bool × Isect :=
  ((intersect_bvh_loop bh pr tmin tmax root).hit,
   if (intersect_bvh_loop bh pr tmin tmax root).hit then
     (intersect_bvh_loop bh pr tmin tmax root).best
   else isect)

/-- Lines 196-199 of `intersect_bvh_recursive`: a child's `t_hit` below
`ray->tmin` is reset to `FLT_MAX`. -/
def rec_clamp (tmin : ℚ) (is : Isect) : Isect :=
  if is.t_hit < tmin then { is with t_hit := FLT_MAX } else is

/-- Lines 201-205: keep the strictly closer of the two children's results;
when neither is strictly closer the output buffer is left as it was. -/
def rec_merge (tmin : ℚ) (il ir buf : Isect) : Isect :=
  if (rec_clamp tmin il).t_hit < (rec_clamp tmin ir).t_hit then rec_clamp tmin il
  else if (rec_clamp tmin ir).t_hit < (rec_clamp tmin il).t_hit then rec_clamp tmin ir
  else buf

/-- `intersect_bvh_recursive`, with the output buffer made explicit: first the
node's own box is tested (unlike the loop, which never tests the box of the
node it stands on), a leaf is intersected directly into the buffer, and an
internal node recurses into both children with fresh local buffers whose
`t_hit` is initialized to `FLT_MAX` (their payloads are uninitialized stack
memory, fixed to 0 in the model).  A childless node with `prim_id = -1` would
dereference NULL in C (undefined behavior, unreachable for built trees); the
model pops back with no hit. -/
def intersect_bvh_recursive (bh : Box → Bool) (pr : Int → Option Isect)
    (tmin tmax : ℚ) : BVHNode → Isect → Bool × Isect
  | .leaf b i, isect =>
    if bh b = false then (false, isect)
    else if i = -1 then (false, isect)
    else prim_ray_write pr tmin tmax i isect
  | .node l r b _, isect =>
    if bh b = false then (false, isect)
    else
      ((intersect_bvh_recursive bh pr tmin tmax l ⟨FLT_MAX, 0⟩).1 ||
       (intersect_bvh_recursive bh pr tmin tmax r ⟨FLT_MAX, 0⟩).1,
       rec_merge tmin
         (intersect_bvh_recursive bh pr tmin tmax l ⟨FLT_MAX, 0⟩).2
         (intersect_bvh_recursive bh pr tmin tmax r ⟨FLT_MAX, 0⟩).2
         isect)

theorem scan_leaves_nil (pr : Int → Option Isect) (tmin tmax : ℚ)
    (st : Bool × Isect) : scan_leaves pr tmin tmax st [] = st := rfl

theorem scan_leaves_cons (pr : Int → Option Isect) (tmin tmax : ℚ)
    (st : Bool × Isect) (i : Int) (l : List Int) :
    scan_leaves pr tmin tmax st (i :: l) =
      scan_leaves pr tmin tmax (scan_step pr tmin tmax st i) l := rfl

theorem scan_leaves_append (pr : Int → Option Isect) (tmin tmax : ℚ)
    (st : Bool × Isect) (l1 l2 : List Int) :
    scan_leaves pr tmin tmax st (l1 ++ l2) =
      scan_leaves pr tmin tmax (scan_leaves pr tmin tmax st l1) l2 :=
  List.foldl_append _ _ _ _

/-- The loop equals a linear scan of the visited leaves: from any loop state,
the result's hit flag and best hit are those of folding the leaf-visit step
over the leaves still to be visited (below the current node, then in the
stacked subtrees, top first), and the visit log grows by exactly those
leaves. -/
theorem intersect_bvh_loop_aux_spec (bh : Box → Bool) (pr : Int → Option Isect)
    (tmin tmax : ℚ) :
    ∀ fuel n stack hit best maxd vis,
      bvh_size n + stack_size stack ≤ fuel →
      ((intersect_bvh_loop_aux bh pr tmin tmax fuel n stack hit best maxd vis).hit,
       (intersect_bvh_loop_aux bh pr tmin tmax fuel n stack hit best maxd vis).best) =
        scan_leaves pr tmin tmax (hit, best)
          (visitedLeaves bh n ++ pendVisited bh stack) ∧
      (intersect_bvh_loop_aux bh pr tmin tmax fuel n stack hit best maxd vis).visited =
        vis ++ (visitedLeaves bh n ++ pendVisited bh stack) := by
  intro fuel
  induction fuel with
  | zero =>
    intro n stack hit best maxd vis hm
    have := bvh_size_pos n
    omega
  | succ fuel ih =>
    intro n stack hit best maxd vis hm
    match n with
    | .leaf b i =>
      by_cases hi : i = -1
      · have hV : visitedLeaves bh (BVHNode.leaf b i) = [] := by
          simp [visitedLeaves, hi]
        match stack with
        | [] =>
          have hstep : intersect_bvh_loop_aux bh pr tmin tmax (fuel + 1)
              (BVHNode.leaf b i) [] hit best maxd vis = ⟨hit, best, maxd, vis⟩ := by
            simp [intersect_bvh_loop_aux, is_bvh_leaf, hi]
          rw [hstep, hV]
          simp [pendVisited, scan_leaves_nil]
        | top :: rest =>
          have hstep : intersect_bvh_loop_aux bh pr tmin tmax (fuel + 1)
              (BVHNode.leaf b i) (top :: rest) hit best maxd vis =
              intersect_bvh_loop_aux bh pr tmin tmax fuel top rest hit best maxd vis := by
            simp [intersect_bvh_loop_aux, is_bvh_leaf, hi]
          have hm' : bvh_size top + stack_size rest ≤ fuel := by
            simp only [bvh_size, stack_size] at hm ⊢
            omega
          rw [hstep, hV]
          simpa [pendVisited] using ih top rest hit best maxd vis hm'
      · have hV : visitedLeaves bh (BVHNode.leaf b i) = [i] := by
          simp [visitedLeaves, hi]
        match stack with
        | [] =>
          have hstep : intersect_bvh_loop_aux bh pr tmin tmax (fuel + 1)
              (BVHNode.leaf b i) [] hit best maxd vis =
              ⟨(scan_step pr tmin tmax (hit, best) i).1,
               (scan_step pr tmin tmax (hit, best) i).2, maxd, vis ++ [i]⟩ := by
            simp [intersect_bvh_loop_aux, is_bvh_leaf, hi, nodePrimId]
          rw [hstep, hV]
          simp [pendVisited, scan_leaves_cons, scan_leaves_nil]
        | top :: rest =>
          have hstep : intersect_bvh_loop_aux bh pr tmin tmax (fuel + 1)
              (BVHNode.leaf b i) (top :: rest) hit best maxd vis =
              intersect_bvh_loop_aux bh pr tmin tmax fuel top rest
                (scan_step pr tmin tmax (hit, best) i).1
                (scan_step pr tmin tmax (hit, best) i).2 maxd (vis ++ [i]) := by
            simp [intersect_bvh_loop_aux, is_bvh_leaf, hi, nodePrimId]
          have hm' : bvh_size top + stack_size rest ≤ fuel := by
            simp only [bvh_size, stack_size] at hm ⊢
            omega
          have hrec := ih top rest
            (scan_step pr tmin tmax (hit, best) i).1
            (scan_step pr tmin tmax (hit, best) i).2 maxd (vis ++ [i]) hm'
          rw [hstep, hV]
          rw [List.cons_append, List.nil_append, scan_leaves_cons]
          constructor
          · rw [hrec.1]
            simp [pendVisited]
          · rw [hrec.2]
            simp [pendVisited]
    | .node l r b i =>
      cases hbl : bh (nodeBounds l) <;> cases hbr : bh (nodeBounds r)
      · -- neither child box hit
        have hV : visitedLeaves bh (BVHNode.node l r b i) = [] := by
          simp [visitedLeaves, hbl, hbr]
        match stack with
        | [] =>
          have hstep : intersect_bvh_loop_aux bh pr tmin tmax (fuel + 1)
              (BVHNode.node l r b i) [] hit best maxd vis = ⟨hit, best, maxd, vis⟩ := by
            simp [intersect_bvh_loop_aux, is_bvh_leaf, hbl, hbr]
          rw [hstep, hV]
          simp [pendVisited, scan_leaves_nil]
        | top :: rest =>
          have hstep : intersect_bvh_loop_aux bh pr tmin tmax (fuel + 1)
              (BVHNode.node l r b i) (top :: rest) hit best maxd vis =
              intersect_bvh_loop_aux bh pr tmin tmax fuel top rest hit best maxd vis := by
            simp [intersect_bvh_loop_aux, is_bvh_leaf, hbl, hbr]
          have hm' : bvh_size top + stack_size rest ≤ fuel := by
            have := bvh_size_pos (BVHNode.node l r b i)
            simp only [stack_size] at hm ⊢
            omega
          rw [hstep, hV]
          simpa [pendVisited] using ih top rest hit best maxd vis hm'
      · -- only right child box hit
        have hV : visitedLeaves bh (BVHNode.node l r b i) = visitedLeaves bh r := by
          simp [visitedLeaves, hbl, hbr]
        have hstep : intersect_bvh_loop_aux bh pr tmin tmax (fuel + 1)
            (BVHNode.node l r b i) stack hit best maxd vis =
            intersect_bvh_loop_aux bh pr tmin tmax fuel r stack hit best maxd vis := by
          simp [intersect_bvh_loop_aux, is_bvh_leaf, hbl, hbr]
        have hm' : bvh_size r + stack_size stack ≤ fuel := by
          have h1 : bvh_size (BVHNode.node l r b i) = bvh_size l + bvh_size r + 1 := rfl
          have := bvh_size_pos l
          omega
        rw [hstep, hV]
        exact ih r stack hit best maxd vis hm'
      · -- only left child box hit
        have hV : visitedLeaves bh (BVHNode.node l r b i) = visitedLeaves bh l := by
          simp [visitedLeaves, hbl, hbr]
        have hstep : intersect_bvh_loop_aux bh pr tmin tmax (fuel + 1)
            (BVHNode.node l r b i) stack hit best maxd vis =
            intersect_bvh_loop_aux bh pr tmin tmax fuel l stack hit best maxd vis := by
          simp [intersect_bvh_loop_aux, is_bvh_leaf, hbl, hbr]
        have hm' : bvh_size l + stack_size stack ≤ fuel := by
          have h1 : bvh_size (BVHNode.node l r b i) = bvh_size l + bvh_size r + 1 := rfl
          have := bvh_size_pos r
          omega
        rw [hstep, hV]
        exact ih l stack hit best maxd vis hm'
      · -- both child boxes hit: push right, descend left
        have hV : visitedLeaves bh (BVHNode.node l r b i) =
            visitedLeaves bh l ++ visitedLeaves bh r := by
          simp [visitedLeaves, hbl, hbr]
        have hstep : intersect_bvh_loop_aux bh pr tmin tmax (fuel + 1)
            (BVHNode.node l r b i) stack hit best maxd vis =
            intersect_bvh_loop_aux bh pr tmin tmax fuel l (r :: stack) hit best
              (max maxd (stack.length + 1)) vis := by
          simp [intersect_bvh_loop_aux, is_bvh_leaf, hbl, hbr]
        have hm' : bvh_size l + stack_size (r :: stack) ≤ fuel := by
          have h1 : bvh_size (BVHNode.node l r b i) = bvh_size l + bvh_size r + 1 := rfl
          simp only [stack_size] at hm ⊢
          omega
        have hrec := ih l (r :: stack) hit best (max maxd (stack.length + 1)) vis hm'
        rw [hstep, hV]
        constructor
        · rw [hrec.1]
          simp [pendVisited, List.append_assoc]
        · rw [hrec.2]
          simp [pendVisited, List.append_assoc]

/-- Worst-case pending bound for a whole stack configuration. -/
def stackBnd : List BVHNode → Nat
  | [] => 0
  | n :: s => max (s.length + bnd n) (stackBnd s)

/-- The peak stack depth the loop reaches is bounded by the pending bound of
its starting configuration. -/
theorem intersect_bvh_loop_aux_maxd (bh : Box → Bool) (pr : Int → Option Isect)
    (tmin tmax : ℚ) :
    ∀ fuel n stack hit best maxd vis,
      bvh_size n + stack_size stack ≤ fuel →
      (intersect_bvh_loop_aux bh pr tmin tmax fuel n stack hit best maxd vis).maxDepth ≤
        max maxd (stackBnd (n :: stack)) := by
  intro fuel
  induction fuel with
  | zero =>
    intro n stack hit best maxd vis hm
    have := bvh_size_pos n
    omega
  | succ fuel ih =>
    intro n stack hit best maxd vis hm
    have hpop : ∀ top rest hit' best' vis',
        stack = top :: rest →
        (intersect_bvh_loop_aux bh pr tmin tmax fuel top rest hit' best' maxd vis').maxDepth ≤
          max maxd (stackBnd (n :: stack)) := by
      intro top rest hit' best' vis' hstk
      subst hstk
      have hm' : bvh_size top + stack_size rest ≤ fuel := by
        have := bvh_size_pos n
        simp only [stack_size] at hm
        omega
      refine le_trans (ih top rest hit' best' maxd vis' hm') ?_
      have h1 : stackBnd (top :: rest) ≤ stackBnd (n :: top :: rest) := by
        simp only [stackBnd]
        omega
      omega
    match n with
    | .leaf b i =>
      by_cases hi : i = -1
      · match stack with
        | [] =>
          have hstep : intersect_bvh_loop_aux bh pr tmin tmax (fuel + 1)
              (BVHNode.leaf b i) [] hit best maxd vis = ⟨hit, best, maxd, vis⟩ := by
            simp [intersect_bvh_loop_aux, is_bvh_leaf, hi]
          rw [hstep]
          simp
        | top :: rest =>
          have hstep : intersect_bvh_loop_aux bh pr tmin tmax (fuel + 1)
              (BVHNode.leaf b i) (top :: rest) hit best maxd vis =
              intersect_bvh_loop_aux bh pr tmin tmax fuel top rest hit best maxd vis := by
            simp [intersect_bvh_loop_aux, is_bvh_leaf, hi]
          rw [hstep]
          exact hpop top rest hit best vis rfl
      · match stack with
        | [] =>
          have hstep : intersect_bvh_loop_aux bh pr tmin tmax (fuel + 1)
              (BVHNode.leaf b i) [] hit best maxd vis =
              ⟨(scan_step pr tmin tmax (hit, best) i).1,
               (scan_step pr tmin tmax (hit, best) i).2, maxd, vis ++ [i]⟩ := by
            simp [intersect_bvh_loop_aux, is_bvh_leaf, hi, nodePrimId]
          rw [hstep]
          simp
        | top :: rest =>
          have hstep : intersect_bvh_loop_aux bh pr tmin tmax (fuel + 1)
              (BVHNode.leaf b i) (top :: rest) hit best maxd vis =
              intersect_bvh_loop_aux bh pr tmin tmax fuel top rest
                (scan_step pr tmin tmax (hit, best) i).1
                (scan_step pr tmin tmax (hit, best) i).2 maxd (vis ++ [i]) := by
            simp [intersect_bvh_loop_aux, is_bvh_leaf, hi, nodePrimId]
          rw [hstep]
          exact hpop top rest _ _ _ rfl
    | .node l r b i =>
      have hbnd : bnd (BVHNode.node l r b i) = max (1 + bnd l) (bnd r) := rfl
      have hsz : bvh_size (BVHNode.node l r b i) = bvh_size l + bvh_size r + 1 := rfl
      cases hbl : bh (nodeBounds l) <;> cases hbr : bh (nodeBounds r)
      · match stack with
        | [] =>
          have hstep : intersect_bvh_loop_aux bh pr tmin tmax (fuel + 1)
              (BVHNode.node l r b i) [] hit best maxd vis = ⟨hit, best, maxd, vis⟩ := by
            simp [intersect_bvh_loop_aux, is_bvh_leaf, hbl, hbr]
          rw [hstep]
          simp
        | top :: rest =>
          have hstep : intersect_bvh_loop_aux bh pr tmin tmax (fuel + 1)
              (BVHNode.node l r b i) (top :: rest) hit best maxd vis =
              intersect_bvh_loop_aux bh pr tmin tmax fuel top rest hit best maxd vis := by
            simp [intersect_bvh_loop_aux, is_bvh_leaf, hbl, hbr]
          rw [hstep]
          exact hpop top rest hit best vis rfl
      · have hstep : intersect_bvh_loop_aux bh pr tmin tmax (fuel + 1)
            (BVHNode.node l r b i) stack hit best maxd vis =
            intersect_bvh_loop_aux bh pr tmin tmax fuel r stack hit best maxd vis := by
          simp [intersect_bvh_loop_aux, is_bvh_leaf, hbl, hbr]
        have hm' : bvh_size r + stack_size stack ≤ fuel := by
          have := bvh_size_pos l
          omega
        rw [hstep]
        refine le_trans (ih r stack hit best maxd vis hm') ?_
        simp only [stackBnd, hbnd]
        omega
      · have hstep : intersect_bvh_loop_aux bh pr tmin tmax (fuel + 1)
            (BVHNode.node l r b i) stack hit best maxd vis =
            intersect_bvh_loop_aux bh pr tmin tmax fuel l stack hit best maxd vis := by
          simp [intersect_bvh_loop_aux, is_bvh_leaf, hbl, hbr]
        have hm' : bvh_size l + stack_size stack ≤ fuel := by
          have := bvh_size_pos r
          omega
        rw [hstep]
        refine le_trans (ih l stack hit best maxd vis hm') ?_
        simp only [stackBnd, hbnd]
        omega
      · have hstep : intersect_bvh_loop_aux bh pr tmin tmax (fuel + 1)
            (BVHNode.node l r b i) stack hit best maxd vis =
            intersect_bvh_loop_aux bh pr tmin tmax fuel l (r :: stack) hit best
              (max maxd (stack.length + 1)) vis := by
          simp [intersect_bvh_loop_aux, is_bvh_leaf, hbl, hbr]
        have hm' : bvh_size l + stack_size (r :: stack) ≤ fuel := by
          simp only [stack_size] at hm ⊢
          omega
        rw [hstep]
        refine le_trans (ih l (r :: stack) hit best (max maxd (stack.length + 1)) vis hm') ?_
        simp only [stackBnd, List.length_cons, hbnd]
        omega

theorem intersect_bvh_loop_spec (bh : Box → Bool) (pr : Int → Option Isect)
    (tmin tmax : ℚ) (root : BVHNode) :
    ((intersect_bvh_loop bh pr tmin tmax root).hit,
     (intersect_bvh_loop bh pr tmin tmax root).best) =
      scan_leaves pr tmin tmax (false, ⟨FLT_MAX, 0⟩) (visitedLeaves bh root) ∧
    (intersect_bvh_loop bh pr tmin tmax root).visited = visitedLeaves bh root := by
  have h := intersect_bvh_loop_aux_spec bh pr tmin tmax (bvh_size root) root []
    false ⟨FLT_MAX, 0⟩ 0 [] (by simp [stack_size])
  simpa [intersect_bvh_loop, pendVisited] using h

theorem intersect_bvh_loop_maxd (bh : Box → Bool) (pr : Int → Option Isect)
    (tmin tmax : ℚ) (root : BVHNode) :
    (intersect_bvh_loop bh pr tmin tmax root).maxDepth ≤ bnd root := by
  have h := intersect_bvh_loop_aux_maxd bh pr tmin tmax (bvh_size root) root []
    false ⟨FLT_MAX, 0⟩ 0 [] (by simp [stack_size])
  simpa [intersect_bvh_loop, stackBnd] using h

/-- The in-range hits the primitive set reports for a list of leaves, in leaf
order. -/
def hitsOf (pr : Int → Option Isect) (tmin tmax : ℚ) (l : List Int) : List Isect :=
  l.filterMap (prim_ray_intersect pr tmin tmax)

theorem hitsOf_append (pr : Int → Option Isect) (tmin tmax : ℚ) (l1 l2 : List Int) :
    hitsOf pr tmin tmax (l1 ++ l2) = hitsOf pr tmin tmax l1 ++ hitsOf pr tmin tmax l2 :=
  List.filterMap_append _ _ _

theorem prim_ray_intersect_range (pr : Int → Option Isect) (tmin tmax : ℚ)
    (i : Int) (h : Isect) (hh : prim_ray_intersect pr tmin tmax i = some h) :
    tmin ≤ h.t_hit ∧ h.t_hit ≤ tmax := by
  revert hh
  unfold prim_ray_intersect
  cases pr i with
  | none => intro hh; exact absurd hh (by simp)
  | some is =>
    intro hh
    have hh' : (if is.t_hit < tmin ∨ tmax < is.t_hit then (none : Option Isect)
        else some is) = some h := hh
    by_cases hc : is.t_hit < tmin ∨ tmax < is.t_hit
    · rw [if_pos hc] at hh'
      exact absurd hh' (by simp)
    · rw [if_neg hc] at hh'
      cases hh'
      push_neg at hc
      exact ⟨hc.1, hc.2⟩

/-- The strictly-closer fold the loop performs over successive hits: keep the
current best unless the next hit is strictly closer (so the earliest hit wins
ties). -/
def firstMinAux (a : Isect) : List Isect → Isect
  | [] => a
  | x :: xs => firstMinAux (if x.t_hit < a.t_hit then x else a) xs

theorem firstMinAux_mem (a : Isect) (l : List Isect) :
    firstMinAux a l ∈ a :: l := by
  induction l generalizing a with
  | nil => simp [firstMinAux]
  | cons x xs ih =>
    simp only [firstMinAux]
    by_cases hc : x.t_hit < a.t_hit
    · rw [if_pos hc]
      rcases List.mem_cons.mp (ih x) with h | h
      · simp [h]
      · simp [List.mem_cons_of_mem, h]
    · rw [if_neg hc]
      rcases List.mem_cons.mp (ih a) with h | h
      · simp [h]
      · simp [List.mem_cons_of_mem, h]

theorem firstMinAux_le (a : Isect) (l : List Isect) :
    ∀ x ∈ a :: l, (firstMinAux a l).t_hit ≤ x.t_hit := by
  induction l generalizing a with
  | nil => simp [firstMinAux]
  | cons y ys ih =>
    intro x hx
    simp only [firstMinAux]
    have hstep : (if y.t_hit < a.t_hit then y else a).t_hit ≤ a.t_hit ∧
        (if y.t_hit < a.t_hit then y else a).t_hit ≤ y.t_hit := by
      by_cases hc : y.t_hit < a.t_hit
      · rw [if_pos hc]; exact ⟨le_of_lt hc, le_refl _⟩
      · rw [if_neg hc]; exact ⟨le_refl _, le_of_not_lt hc⟩
    rcases List.mem_cons.mp hx with h | h
    · subst h
      exact le_trans (ih _ _ (List.mem_cons_self _ _)) hstep.1
    · rcases List.mem_cons.mp h with h' | h'
      · subst h'
        exact le_trans (ih _ _ (List.mem_cons_self _ _)) hstep.2
      · exact ih _ _ (List.mem_cons_of_mem _ h')

/-- The fold keeps the first element attaining the minimum: everything before
the returned hit in the scanned sequence is strictly farther. -/
theorem firstMinAux_first (a : Isect) (l : List Isect) :
    ∃ pre suf, a :: l = pre ++ firstMinAux a l :: suf ∧
      ∀ x ∈ pre, (firstMinAux a l).t_hit < x.t_hit := by
  induction l generalizing a with
  | nil => exact ⟨[], [], by simp [firstMinAux], by simp⟩
  | cons y ys ih =>
    simp only [firstMinAux]
    by_cases hc : y.t_hit < a.t_hit
    · rw [if_pos hc]
      obtain ⟨pre, suf, hdecomp, hpre⟩ := ih y
      refine ⟨a :: pre, suf, by rw [List.cons_append, ← hdecomp], ?_⟩
      intro x hx
      rcases List.mem_cons.mp hx with h | h
      · subst h
        exact lt_of_le_of_lt (firstMinAux_le y ys y (List.mem_cons_self _ _)) hc
      · exact hpre x h
    · rw [if_neg hc]
      obtain ⟨pre, suf, hdecomp, hpre⟩ := ih a
      cases pre with
      | nil =>
        rw [List.nil_append] at hdecomp
        injection hdecomp with h1 h2
        refine ⟨[], y :: ys, ?_, by simp⟩
        rw [List.nil_append, ← h1]
      | cons a' pre' =>
        rw [List.cons_append] at hdecomp
        injection hdecomp with h1 htl
        subst h1
        have hmin_a : (firstMinAux a ys).t_hit < a.t_hit :=
          hpre a (List.mem_cons_self _ _)
        refine ⟨a :: y :: pre', suf, ?_, ?_⟩
        · have hre : (a :: y :: pre') ++ firstMinAux a ys :: suf =
              a :: y :: (pre' ++ firstMinAux a ys :: suf) := by simp
          rw [hre, ← htl]
        · intro x hx
          rcases List.mem_cons.mp hx with h | h
          · subst h
            exact hmin_a
          · rcases List.mem_cons.mp h with h' | h'
            · subst h'
              exact lt_of_lt_of_le hmin_a (le_of_not_lt hc)
            · exact hpre x (List.mem_cons_of_mem _ h')

theorem scan_leaves_true (pr : Int → Option Isect) (tmin tmax : ℚ) :
    ∀ (l : List Int) (a : Isect),
      scan_leaves pr tmin tmax (true, a) l =
        (true, firstMinAux a (hitsOf pr tmin tmax l)) := by
  intro l
  induction l with
  | nil => intro a; simp [scan_leaves_nil, hitsOf, firstMinAux]
  | cons i l' ih =>
    intro a
    rw [scan_leaves_cons]
    cases hpri : prim_ray_intersect pr tmin tmax i with
    | none =>
      have hstep : scan_step pr tmin tmax (true, a) i = (true, a) := by
        simp [scan_step, hpri]
      rw [hstep, ih a]
      simp [hitsOf, List.filterMap_cons, hpri]
    | some h =>
      have hstep : scan_step pr tmin tmax (true, a) i =
          (true, if h.t_hit < a.t_hit then h else a) := by
        simp only [scan_step, hpri]
        by_cases hc : h.t_hit < a.t_hit
        · rw [if_pos hc, if_pos hc]
        · rw [if_neg hc, if_neg hc]
      rw [hstep, ih _]
      simp [hitsOf, List.filterMap_cons, hpri, firstMinAux]

theorem scan_leaves_false (pr : Int → Option Isect) (tmin tmax : ℚ) :
    ∀ (l : List Int) (b0 : Isect), b0.t_hit = FLT_MAX →
      (∀ h ∈ hitsOf pr tmin tmax l, h.t_hit < FLT_MAX) →
      scan_leaves pr tmin tmax (false, b0) l =
        (match hitsOf pr tmin tmax l with
          | [] => (false, b0)
          | h :: hs => (true, firstMinAux h hs)) := by
  intro l
  induction l with
  | nil => intro b0 _ _; simp [scan_leaves_nil, hitsOf]
  | cons i l' ih =>
    intro b0 hb0 hts
    rw [scan_leaves_cons]
    cases hpri : prim_ray_intersect pr tmin tmax i with
    | none =>
      have hstep : scan_step pr tmin tmax (false, b0) i = (false, b0) := by
        simp [scan_step, hpri]
      have hhits : hitsOf pr tmin tmax (i :: l') = hitsOf pr tmin tmax l' := by
        simp [hitsOf, List.filterMap_cons, hpri]
      rw [hstep, ih b0 hb0 (by rw [← hhits]; exact hts)]
      rw [hhits]
    | some h =>
      have hhits : hitsOf pr tmin tmax (i :: l') = h :: hitsOf pr tmin tmax l' := by
        simp [hitsOf, List.filterMap_cons, hpri]
      have hlt : h.t_hit < FLT_MAX := hts h (by rw [hhits]; exact List.mem_cons_self _ _)
      have hstep : scan_step pr tmin tmax (false, b0) i = (true, h) := by
        simp only [scan_step, hpri]
        rw [if_pos (by rw [hb0]; exact hlt)]
      rw [hstep, scan_leaves_true, hhits]

/-- Any state the scan can reach with the hit flag set carries a best hit
inside the closed `[tmin, tmax]` interval; the flag only becomes set by
accepting a `prim_ray_intersect` result, which enforces the interval. -/
theorem scan_leaves_range (pr : Int → Option Isect) (tmin tmax : ℚ) :
    ∀ (l : List Int) (st : Bool × Isect),
      (st.1 = true → tmin ≤ st.2.t_hit ∧ st.2.t_hit ≤ tmax) →
      ((scan_leaves pr tmin tmax st l).1 = true →
        tmin ≤ (scan_leaves pr tmin tmax st l).2.t_hit ∧
        (scan_leaves pr tmin tmax st l).2.t_hit ≤ tmax) := by
  intro l
  induction l with
  | nil => intro st hst; simpa [scan_leaves_nil] using hst
  | cons i l' ih =>
    intro st hst
    rw [scan_leaves_cons]
    refine ih (scan_step pr tmin tmax st i) ?_
    intro hflag
    cases hpri : prim_ray_intersect pr tmin tmax i with
    | none =>
      have : scan_step pr tmin tmax st i = st := by simp [scan_step, hpri]
      rw [this] at hflag ⊢
      exact hst hflag
    | some h =>
      by_cases hc : h.t_hit < st.2.t_hit
      · have : scan_step pr tmin tmax st i = (true, h) := by
          simp only [scan_step, hpri]
          rw [if_pos hc]
        rw [this]
        exact prim_ray_intersect_range pr tmin tmax i h hpri
      · have : scan_step pr tmin tmax st i = st := by
          simp only [scan_step, hpri]
          rw [if_neg hc]
        rw [this] at hflag ⊢
        exact hst hflag

/-- The leaves `intersect_bvh_recursive` intersects below a node, in visit
order.  Unlike the loop, the recursive code tests the box of every node it is
called on, including the root. -/
def visitedLeavesRec (bh : Box → Bool) : BVHNode → List Int
  | .leaf b i =>
    (match bh b with
      | false => []
      | true => if i = -1 then [] else [i])
  | .node l r b _ =>
    (match bh b with
      | false => []
      | true => visitedLeavesRec bh l ++ visitedLeavesRec bh r)

theorem visitedLeavesRec_eq (bh : Box → Bool) (t : BVHNode) :
    visitedLeavesRec bh t =
      (match bh (nodeBounds t) with
        | false => []
        | true => visitedLeaves bh t) := by
  induction t with
  | leaf b i =>
    cases hb : bh (nodeBounds (BVHNode.leaf b i))
    · simp [visitedLeavesRec, nodeBounds] at hb ⊢
      rw [hb]
    · simp [visitedLeavesRec, visitedLeaves, nodeBounds] at hb ⊢
      rw [hb]
  | node l r b i ihl ihr =>
    cases hb : bh (nodeBounds (BVHNode.node l r b i))
    · simp only [nodeBounds] at hb
      simp [visitedLeavesRec, hb]
    · simp only [nodeBounds] at hb
      simp only [visitedLeavesRec, hb, visitedLeaves, ihl, ihr]
      cases bh (nodeBounds l) <;> cases bh (nodeBounds r) <;> simp

/-- Internal bounds are the union of the children's bounds, recursively. -/
def wfBounds : BVHNode → Prop
  | .leaf _ _ => True
  | .node l r b _ =>
    b = BoxAddBox (nodeBounds l) (nodeBounds r) ∧ wfBounds l ∧ wfBounds r

theorem build_wfBounds :
    ∀ fuel (prims : List Prim) (axis : Nat), prims.length ≤ fuel →
      wfBounds (build_bvh fuel prims axis) := by
  intro fuel
  induction fuel with
  | zero =>
    intro prims axis hlen
    cases prims with
    | nil => simp [build_bvh, wfBounds]
    | cons p ps => simp at hlen
  | succ fuel ih =>
    intro prims axis hlen
    match prims with
    | [] => simp [build_bvh, wfBounds]
    | [p] => simp [build_bvh, wfBounds]
    | p0 :: p1 :: rest =>
      obtain ⟨hL, hR, hm0, hmlt, _⟩ := split_facts p0 p1 rest axis
      have hslen : rest.length + 2 ≤ fuel + 1 := by simpa using hlen
      exact ⟨rfl, ih (splitL axis (p0 :: p1 :: rest)) (new_axis axis) (by omega),
        ih (splitR axis (p0 :: p1 :: rest)) (new_axis axis) (by omega)⟩

theorem prim_ray_write_none (pr : Int → Option Isect) (tmin tmax : ℚ) (i : Int)
    (buf : Isect) (h : prim_ray_intersect pr tmin tmax i = none) :
    (prim_ray_write pr tmin tmax i buf).1 = false ∧
    (prim_ray_write pr tmin tmax i buf).2.t_hit = FLT_MAX := by
  cases hpr : pr i with
  | none => simp [prim_ray_write, hpr]
  | some is =>
    by_cases hc : is.t_hit < tmin ∨ tmax < is.t_hit
    · simp [prim_ray_write, hpr, hc]
    · simp [prim_ray_intersect, hpr, hc] at h

theorem prim_ray_write_some (pr : Int → Option Isect) (tmin tmax : ℚ) (i : Int)
    (buf : Isect) (h : Isect) (hh : prim_ray_intersect pr tmin tmax i = some h) :
    prim_ray_write pr tmin tmax i buf = (true, h) := by
  cases hpr : pr i with
  | none => simp [prim_ray_intersect, hpr] at hh
  | some is =>
    by_cases hc : is.t_hit < tmin ∨ tmax < is.t_hit
    · simp [prim_ray_intersect, hpr, hc] at hh
    · simp [prim_ray_intersect, hpr, hc] at hh
      subst hh
      simp [prim_ray_write, hpr, hc]

theorem visitedLeaves_subset (bh : Box → Bool) (t : BVHNode) :
    ∀ i ∈ visitedLeaves bh t, i ∈ leafIds t := by
  induction t with
  | leaf b j =>
    intro i hi
    by_cases hj : j = -1
    · simp [visitedLeaves, hj] at hi
    · simp [visitedLeaves, hj] at hi
      simp [leafIds, hi]
  | node l r b j ihl ihr =>
    intro i hi
    simp only [visitedLeaves] at hi
    simp only [leafIds, List.mem_append]
    rcases List.mem_append.mp hi with h | h
    · left
      cases hbl : bh (nodeBounds l)
      · rw [hbl] at h; simp at h
      · rw [hbl] at h; exact ihl i h
    · right
      cases hbr : bh (nodeBounds r)
      · rw [hbr] at h; simp at h
      · rw [hbr] at h; exact ihr i h

theorem visitedLeavesRec_subset (bh : Box → Bool) (t : BVHNode) :
    ∀ i ∈ visitedLeavesRec bh t, i ∈ leafIds t := by
  intro i hi
  rw [visitedLeavesRec_eq] at hi
  cases hb : bh (nodeBounds t)
  · rw [hb] at hi; simp at hi
  · rw [hb] at hi; exact visitedLeaves_subset bh t i hi

theorem leafIds_mem_leafRecs (t : BVHNode) (i : Int) (hi : i ∈ leafIds t) :
    ∃ b, (b, i) ∈ leafRecs t := by
  rw [leafIds_eq_map_leafRecs] at hi
  obtain ⟨⟨b, j⟩, hmem, hj⟩ := List.mem_map.mp hi
  cases hj
  exact ⟨b, hmem⟩

/-- If some leaf of a well-formed subtree has a hit box, the subtree's own box
is hit: box hits propagate up through unions. -/
theorem box_hit_up (bh : Box → Bool)
    (hmL : ∀ b1 b2, bh b1 = true → bh (BoxAddBox b1 b2) = true)
    (hmR : ∀ b1 b2, bh b2 = true → bh (BoxAddBox b1 b2) = true) :
    ∀ t : BVHNode, wfBounds t →
      ∀ b i, (b, i) ∈ leafRecs t → bh b = true → bh (nodeBounds t) = true := by
  intro t
  induction t with
  | leaf b' i' =>
    intro _ b i hmem hb
    simp only [leafRecs, List.mem_singleton] at hmem
    cases hmem
    simpa [nodeBounds] using hb
  | node l r b' i' ihl ihr =>
    intro hwf b i hmem hb
    obtain ⟨hbb, hwfl, hwfr⟩ := hwf
    simp only [nodeBounds, hbb]
    rcases List.mem_append.mp hmem with h | h
    · exact hmL _ _ (ihl hwfl b i h hb)
    · exact hmR _ _ (ihr hwfr b i h hb)

theorem rec_clamp_of_le (tmin : ℚ) (is : Isect) (h : tmin ≤ is.t_hit) :
    rec_clamp tmin is = is := by
  unfold rec_clamp
  rw [if_neg (not_lt.2 h)]

theorem rec_clamp_t_flt (tmin : ℚ) (is : Isect) (h : is.t_hit = FLT_MAX) :
    (rec_clamp tmin is).t_hit = FLT_MAX := by
  unfold rec_clamp
  split <;> simp [h]

theorem mem_hitsOf (pr : Int → Option Isect) (tmin tmax : ℚ) (l : List Int)
    (x : Isect) :
    x ∈ hitsOf pr tmin tmax l ↔
      ∃ i ∈ l, prim_ray_intersect pr tmin tmax i = some x :=
  List.mem_filterMap

/-- Full characterization of `intersect_bvh_recursive` on trees with distinct
leaf ids, when every reported in-range hit is closer than `FLT_MAX` and hits
of distinct primitives never share a `t_hit`: the flag says whether any
visited leaf hits, a no-hit call leaves the buffer's `t_hit` or turns it to
`FLT_MAX`, and a hit call stores a minimal hit of the visited leaves. -/
theorem rec_spec (bh : Box → Bool) (pr : Int → Option Isect) (tmin tmax : ℚ)
    (hts : ∀ i h, prim_ray_intersect pr tmin tmax i = some h → h.t_hit < FLT_MAX)
    (hdist : ∀ i j hi hj, i ≠ j → prim_ray_intersect pr tmin tmax i = some hi →
      prim_ray_intersect pr tmin tmax j = some hj → hi.t_hit ≠ hj.t_hit) :
    ∀ (n : BVHNode) (buf : Isect), (leafIds n).Nodup →
      ((intersect_bvh_recursive bh pr tmin tmax n buf).1 = true ↔
        hitsOf pr tmin tmax (visitedLeavesRec bh n) ≠ []) ∧
      ((intersect_bvh_recursive bh pr tmin tmax n buf).1 = false →
        (intersect_bvh_recursive bh pr tmin tmax n buf).2.t_hit = buf.t_hit ∨
        (intersect_bvh_recursive bh pr tmin tmax n buf).2.t_hit = FLT_MAX) ∧
      ((intersect_bvh_recursive bh pr tmin tmax n buf).1 = true →
        (intersect_bvh_recursive bh pr tmin tmax n buf).2 ∈
          hitsOf pr tmin tmax (visitedLeavesRec bh n) ∧
        ∀ x ∈ hitsOf pr tmin tmax (visitedLeavesRec bh n),
          (intersect_bvh_recursive bh pr tmin tmax n buf).2.t_hit ≤ x.t_hit) := by
  intro n
  induction n with
  | leaf b i =>
    intro buf _
    cases hb : bh b
    · have hrec : intersect_bvh_recursive bh pr tmin tmax (BVHNode.leaf b i) buf =
          (false, buf) := by
        simp [intersect_bvh_recursive, hb]
      have hV : visitedLeavesRec bh (BVHNode.leaf b i) = [] := by
        simp [visitedLeavesRec, hb]
      rw [hrec, hV]
      simp [hitsOf]
    · by_cases hi : i = -1
      · have hrec : intersect_bvh_recursive bh pr tmin tmax (BVHNode.leaf b i) buf =
            (false, buf) := by
          simp [intersect_bvh_recursive, hb, hi]
        have hV : visitedLeavesRec bh (BVHNode.leaf b i) = [] := by
          simp [visitedLeavesRec, hb, hi]
        rw [hrec, hV]
        simp [hitsOf]
      · have hrec : intersect_bvh_recursive bh pr tmin tmax (BVHNode.leaf b i) buf =
            prim_ray_write pr tmin tmax i buf := by
          simp [intersect_bvh_recursive, hb, hi]
        have hV : visitedLeavesRec bh (BVHNode.leaf b i) = [i] := by
          simp [visitedLeavesRec, hb, hi]
        rw [hrec, hV]
        cases hpri : prim_ray_intersect pr tmin tmax i with
        | none =>
          obtain ⟨hf, ht⟩ := prim_ray_write_none pr tmin tmax i buf hpri
          have hhits : hitsOf pr tmin tmax [i] = [] := by
            simp [hitsOf, List.filterMap_cons, hpri]
          rw [hhits, hf]
          simp [ht]
        | some h =>
          rw [prim_ray_write_some pr tmin tmax i buf h hpri]
          have hhits : hitsOf pr tmin tmax [i] = [h] := by
            simp [hitsOf, List.filterMap_cons, hpri]
          rw [hhits]
          simp
  | node l r b i ihl ihr =>
    intro buf hnodup
    rw [leafIds, List.nodup_append] at hnodup
    obtain ⟨hndl, hndr, hdisj⟩ := hnodup
    cases hb : bh b
    · have hrec : intersect_bvh_recursive bh pr tmin tmax (BVHNode.node l r b i) buf =
          (false, buf) := by
        simp [intersect_bvh_recursive, hb]
      have hV : visitedLeavesRec bh (BVHNode.node l r b i) = [] := by
        simp [visitedLeavesRec, hb]
      rw [hrec, hV]
      simp [hitsOf]
    · have hrec : intersect_bvh_recursive bh pr tmin tmax (BVHNode.node l r b i) buf =
          ((intersect_bvh_recursive bh pr tmin tmax l ⟨FLT_MAX, 0⟩).1 ||
           (intersect_bvh_recursive bh pr tmin tmax r ⟨FLT_MAX, 0⟩).1,
           rec_merge tmin
             (intersect_bvh_recursive bh pr tmin tmax l ⟨FLT_MAX, 0⟩).2
             (intersect_bvh_recursive bh pr tmin tmax r ⟨FLT_MAX, 0⟩).2 buf) := by
        simp [intersect_bvh_recursive, hb]
      have hV : visitedLeavesRec bh (BVHNode.node l r b i) =
          visitedLeavesRec bh l ++ visitedLeavesRec bh r := by
        simp [visitedLeavesRec, hb]
      have hhits : hitsOf pr tmin tmax (visitedLeavesRec bh (BVHNode.node l r b i)) =
          hitsOf pr tmin tmax (visitedLeavesRec bh l) ++
          hitsOf pr tmin tmax (visitedLeavesRec bh r) := by
        rw [hV, hitsOf_append]
      obtain ⟨il1, il2, il3⟩ := ihl ⟨FLT_MAX, 0⟩ hndl
      obtain ⟨ir1, ir2, ir3⟩ := ihr ⟨FLT_MAX, 0⟩ hndr
      rw [hrec, hhits]
      cases hfl : (intersect_bvh_recursive bh pr tmin tmax l ⟨FLT_MAX, 0⟩).1 <;>
        cases hfr : (intersect_bvh_recursive bh pr tmin tmax r ⟨FLT_MAX, 0⟩).1
      · -- no hit on either side
        have hhl : hitsOf pr tmin tmax (visitedLeavesRec bh l) = [] := by
          by_contra hne
          rw [il1.mpr hne] at hfl
          exact absurd hfl (by simp)
        have hhr : hitsOf pr tmin tmax (visitedLeavesRec bh r) = [] := by
          by_contra hne
          rw [ir1.mpr hne] at hfr
          exact absurd hfr (by simp)
        have htl : (intersect_bvh_recursive bh pr tmin tmax l ⟨FLT_MAX, 0⟩).2.t_hit =
            FLT_MAX := by
          rcases il2 hfl with h | h
          · exact h
          · exact h
        have htr : (intersect_bvh_recursive bh pr tmin tmax r ⟨FLT_MAX, 0⟩).2.t_hit =
            FLT_MAX := by
          rcases ir2 hfr with h | h
          · exact h
          · exact h
        have hmerge : rec_merge tmin
            (intersect_bvh_recursive bh pr tmin tmax l ⟨FLT_MAX, 0⟩).2
            (intersect_bvh_recursive bh pr tmin tmax r ⟨FLT_MAX, 0⟩).2 buf = buf := by
          unfold rec_merge
          rw [if_neg, if_neg]
          · rw [rec_clamp_t_flt tmin _ htr, rec_clamp_t_flt tmin _ htl]
            exact lt_irrefl _
          · rw [rec_clamp_t_flt tmin _ htr, rec_clamp_t_flt tmin _ htl]
            exact lt_irrefl _
        rw [hmerge, hhl, hhr]
        simp
      · -- hit only in the right subtree
        have hhl : hitsOf pr tmin tmax (visitedLeavesRec bh l) = [] := by
          by_contra hne
          rw [il1.mpr hne] at hfl
          exact absurd hfl (by simp)
        have htl : (intersect_bvh_recursive bh pr tmin tmax l ⟨FLT_MAX, 0⟩).2.t_hit =
            FLT_MAX := by
          rcases il2 hfl with h | h
          · exact h
          · exact h
        obtain ⟨hmem, hle⟩ := ir3 hfr
        obtain ⟨j, _, hj⟩ :=
          (mem_hitsOf pr tmin tmax _ _).mp hmem
        have hrng := prim_ray_intersect_range pr tmin tmax j _ hj
        have hflt := hts j _ hj
        have hmerge : rec_merge tmin
            (intersect_bvh_recursive bh pr tmin tmax l ⟨FLT_MAX, 0⟩).2
            (intersect_bvh_recursive bh pr tmin tmax r ⟨FLT_MAX, 0⟩).2 buf =
            (intersect_bvh_recursive bh pr tmin tmax r ⟨FLT_MAX, 0⟩).2 := by
          unfold rec_merge
          rw [rec_clamp_of_le tmin _ hrng.1]
          rw [if_neg, if_pos]
          · rw [rec_clamp_t_flt tmin _ htl]
            exact hflt
          · rw [rec_clamp_t_flt tmin _ htl]
            exact not_lt.2 (le_of_lt hflt)
        rw [hmerge, hhl]
        refine ⟨⟨fun _ hcat => (ir1.mp hfr) (by simpa using hcat), fun _ => rfl⟩,
          ?_, fun _ => ⟨by simpa using hmem, ?_⟩⟩
        · intro hcontra
          simp at hcontra
        · intro x hx
          rw [List.nil_append] at hx
          exact hle x hx
      · -- hit only in the left subtree
        have hhr : hitsOf pr tmin tmax (visitedLeavesRec bh r) = [] := by
          by_contra hne
          rw [ir1.mpr hne] at hfr
          exact absurd hfr (by simp)
        have htr : (intersect_bvh_recursive bh pr tmin tmax r ⟨FLT_MAX, 0⟩).2.t_hit =
            FLT_MAX := by
          rcases ir2 hfr with h | h
          · exact h
          · exact h
        obtain ⟨hmem, hle⟩ := il3 hfl
        obtain ⟨j, _, hj⟩ :=
          (mem_hitsOf pr tmin tmax _ _).mp hmem
        have hrng := prim_ray_intersect_range pr tmin tmax j _ hj
        have hflt := hts j _ hj
        have hmerge : rec_merge tmin
            (intersect_bvh_recursive bh pr tmin tmax l ⟨FLT_MAX, 0⟩).2
            (intersect_bvh_recursive bh pr tmin tmax r ⟨FLT_MAX, 0⟩).2 buf =
            (intersect_bvh_recursive bh pr tmin tmax l ⟨FLT_MAX, 0⟩).2 := by
          unfold rec_merge
          rw [rec_clamp_of_le tmin _ hrng.1]
          rw [if_pos]
          rw [rec_clamp_t_flt tmin _ htr]
          exact hflt
        rw [hmerge, hhr]
        refine ⟨⟨fun _ hcat => (il1.mp hfl) (by simpa using hcat), fun _ => rfl⟩,
          ?_, fun _ => ⟨by simpa using hmem, ?_⟩⟩
        · intro hcontra
          simp at hcontra
        · intro x hx
          rw [List.append_nil] at hx
          exact hle x hx
      · -- hits in both subtrees
        obtain ⟨hmemL, hleL⟩ := il3 hfl
        obtain ⟨hmemR, hleR⟩ := ir3 hfr
        obtain ⟨jl, hjl_mem, hjl⟩ := (mem_hitsOf pr tmin tmax _ _).mp hmemL
        obtain ⟨jr, hjr_mem, hjr⟩ := (mem_hitsOf pr tmin tmax _ _).mp hmemR
        have hrngL := prim_ray_intersect_range pr tmin tmax jl _ hjl
        have hrngR := prim_ray_intersect_range pr tmin tmax jr _ hjr
        have hne : jl ≠ jr := by
          intro hjj
          exact hdisj (visitedLeavesRec_subset bh l jl hjl_mem)
            (hjj ▸ visitedLeavesRec_subset bh r jr hjr_mem)
        have htne := hdist jl jr _ _ hne hjl hjr
        rcases lt_or_gt_of_ne htne with hlt | hgt
        · have hmerge : rec_merge tmin
              (intersect_bvh_recursive bh pr tmin tmax l ⟨FLT_MAX, 0⟩).2
              (intersect_bvh_recursive bh pr tmin tmax r ⟨FLT_MAX, 0⟩).2 buf =
              (intersect_bvh_recursive bh pr tmin tmax l ⟨FLT_MAX, 0⟩).2 := by
            unfold rec_merge
            rw [rec_clamp_of_le tmin _ hrngL.1, rec_clamp_of_le tmin _ hrngR.1]
            rw [if_pos hlt]
          rw [hmerge]
          refine ⟨⟨fun _ hcat => (il1.mp hfl) (List.append_eq_nil.mp hcat).1,
            fun _ => rfl⟩, ?_, fun _ => ⟨?_, ?_⟩⟩
          · intro hcontra
            simp at hcontra
          · exact List.mem_append.mpr (Or.inl hmemL)
          · intro x hx
            rcases List.mem_append.mp hx with h | h
            · exact hleL x h
            · exact le_trans (le_of_lt hlt) (hleR x h)
        · have hmerge : rec_merge tmin
              (intersect_bvh_recursive bh pr tmin tmax l ⟨FLT_MAX, 0⟩).2
              (intersect_bvh_recursive bh pr tmin tmax r ⟨FLT_MAX, 0⟩).2 buf =
              (intersect_bvh_recursive bh pr tmin tmax r ⟨FLT_MAX, 0⟩).2 := by
            unfold rec_merge
            rw [rec_clamp_of_le tmin _ hrngL.1, rec_clamp_of_le tmin _ hrngR.1]
            rw [if_neg (not_lt.2 (le_of_lt hgt)), if_pos hgt]
          rw [hmerge]
          refine ⟨⟨fun _ hcat => (il1.mp hfl) (List.append_eq_nil.mp hcat).1,
            fun _ => rfl⟩, ?_, fun _ => ⟨?_, ?_⟩⟩
          · intro hcontra
            simp at hcontra
          · exact List.mem_append.mpr (Or.inr hmemR)
          · intro x hx
            rcases List.mem_append.mp hx with h | h
            · exact le_trans (le_of_lt hgt) (hleL x h)
            · exact hleR x h

/-- The hit a strictly-closer scan of a hit list keeps: the first hit
attaining the minimal `t_hit` (junk on the empty list). -/
def firstMin : List Isect → Isect
  | [] => ⟨FLT_MAX, 0⟩
  | h :: hs => firstMinAux h hs

theorem firstMin_mem (l : List Isect) (hne : l ≠ []) : firstMin l ∈ l := by
  match l with
  | h :: hs => exact firstMinAux_mem h hs

theorem firstMin_le (l : List Isect) (hne : l ≠ []) :
    ∀ x ∈ l, (firstMin l).t_hit ≤ x.t_hit := by
  match l with
  | h :: hs => exact firstMinAux_le h hs

theorem firstMin_first (l : List Isect) (hne : l ≠ []) :
    ∃ pre suf, l = pre ++ firstMin l :: suf ∧
      ∀ x ∈ pre, (firstMin l).t_hit < x.t_hit := by
  match l with
  | h :: hs => exact firstMinAux_first h hs

/-- The loop in terms of the hits of its visited leaves: the flag says whether
any visited leaf has an in-range hit, and on a hit the best hit kept is the
first minimal one in visit order. -/
theorem loop_char (bh : Box → Bool) (pr : Int → Option Isect) (tmin tmax : ℚ)
    (root : BVHNode)
    (hts : ∀ h ∈ hitsOf pr tmin tmax (visitedLeaves bh root), h.t_hit < FLT_MAX) :
    ((intersect_bvh_loop bh pr tmin tmax root).hit = true ↔
      hitsOf pr tmin tmax (visitedLeaves bh root) ≠ []) ∧
    ((intersect_bvh_loop bh pr tmin tmax root).hit = true →
      (intersect_bvh_loop bh pr tmin tmax root).best =
        firstMin (hitsOf pr tmin tmax (visitedLeaves bh root))) := by
  have hspec := (intersect_bvh_loop_spec bh pr tmin tmax root).1
  have hscan := scan_leaves_false pr tmin tmax (visitedLeaves bh root)
    ⟨FLT_MAX, 0⟩ rfl hts
  rw [hscan] at hspec
  cases hh : hitsOf pr tmin tmax (visitedLeaves bh root) with
  | nil =>
    rw [hh] at hspec
    have h1 : (intersect_bvh_loop bh pr tmin tmax root).hit = false := by
      have := congrArg Prod.fst hspec
      simpa using this
    constructor
    · rw [h1]
      simp
    · intro hcontra
      rw [h1] at hcontra
      exact absurd hcontra (by simp)
  | cons h hs =>
    rw [hh] at hspec
    have h1 : (intersect_bvh_loop bh pr tmin tmax root).hit = true := by
      have := congrArg Prod.fst hspec
      simpa using this
    have h2 : (intersect_bvh_loop bh pr tmin tmax root).best = firstMinAux h hs := by
      have := congrArg Prod.snd hspec
      simpa using this
    exact ⟨by simp [h1], fun _ => by rw [h2]; rfl⟩

/-- Two minimal hits of the same leaf list are the same hit, provided hits of
distinct primitives never share a `t_hit`. -/
theorem min_hits_unique (pr : Int → Option Isect) (tmin tmax : ℚ)
    (hdist : ∀ i j hi hj, i ≠ j → prim_ray_intersect pr tmin tmax i = some hi →
      prim_ray_intersect pr tmin tmax j = some hj → hi.t_hit ≠ hj.t_hit)
    (l : List Int) (a b : Isect)
    (ha : a ∈ hitsOf pr tmin tmax l) (hb : b ∈ hitsOf pr tmin tmax l)
    (hale : ∀ x ∈ hitsOf pr tmin tmax l, a.t_hit ≤ x.t_hit)
    (hble : ∀ x ∈ hitsOf pr tmin tmax l, b.t_hit ≤ x.t_hit) : a = b := by
  obtain ⟨i, _, hi⟩ := (mem_hitsOf pr tmin tmax l a).mp ha
  obtain ⟨j, _, hj⟩ := (mem_hitsOf pr tmin tmax l b).mp hb
  by_cases hij : i = j
  · subst hij
    rw [hi] at hj
    exact Option.some.inj hj
  · exact absurd (le_antisymm (hale b hb) (hble a ha)) (hdist i j a b hij hi hj)

theorem mkPrims_length (N : Nat) (pBounds : Nat → Box) :
    (mkPrims N pBounds).length = N := by
  simp [mkPrims]

theorem mkPrims_ne_nil (N : Nat) (pBounds : Nat → Box) (hN : 1 ≤ N) :
    mkPrims N pBounds ≠ [] := by
  intro h
  have := mkPrims_length N pBounds
  rw [h] at this
  simp at this
  omega

theorem leafRecs_accel_perm (N : Nat) (pBounds : Nat → Box) (hN : 1 ≤ N) :
    (leafRecs (build_bvh_accel N pBounds)).Perm
      ((List.range N).map fun k => (pBounds k, (k : Int))) := by
  have h := build_leafRecs_perm N (mkPrims N pBounds) 0
    (mkPrims_ne_nil N pBounds hN) (le_of_eq (mkPrims_length N pBounds))
  have hmap : (mkPrims N pBounds).map (fun p => (p.bounds, p.index)) =
      (List.range N).map fun k => (pBounds k, (k : Int)) := by
    simp only [mkPrims, List.map_map]
    rfl
  rw [hmap] at h
  exact h

theorem leafRecs_accel_mem (N : Nat) (pBounds : Nat → Box) (hN : 1 ≤ N)
    (b : Box) (i : Int) :
    (b, i) ∈ leafRecs (build_bvh_accel N pBounds) ↔
      ∃ k, k < N ∧ b = pBounds k ∧ i = (k : Int) := by
  rw [(leafRecs_accel_perm N pBounds hN).mem_iff]
  constructor
  · intro h
    obtain ⟨k, hk, heq⟩ := List.mem_map.mp h
    obtain ⟨h1, h2⟩ := Prod.mk.injEq .. ▸ heq
    exact ⟨k, List.mem_range.mp hk, h1.symm, h2.symm⟩
  · rintro ⟨k, hk, rfl, rfl⟩
    exact List.mem_map.mpr ⟨k, List.mem_range.mpr hk, rfl⟩

theorem mem_leafIds_accel (N : Nat) (pBounds : Nat → Box) (hN : 1 ≤ N) (i : Int) :
    i ∈ leafIds (build_bvh_accel N pBounds) ↔ ∃ k, k < N ∧ i = (k : Int) := by
  rw [leafIds_eq_map_leafRecs]
  constructor
  · intro h
    obtain ⟨⟨b, j⟩, hmem, hj⟩ := List.mem_map.mp h
    cases hj
    obtain ⟨k, hk, _, hik⟩ := (leafRecs_accel_mem N pBounds hN b j).mp hmem
    exact ⟨k, hk, hik⟩
  · rintro ⟨k, hk, rfl⟩
    exact List.mem_map.mpr ⟨(pBounds k, (k : Int)),
      (leafRecs_accel_mem N pBounds hN _ _).mpr ⟨k, hk, rfl, rfl⟩, rfl⟩

theorem leafIds_accel_nodup (N : Nat) (pBounds : Nat → Box) (hN : 1 ≤ N) :
    (leafIds (build_bvh_accel N pBounds)).Nodup := by
  have hmap2 : ((List.range N).map fun k => (pBounds k, (k : Int))).map Prod.snd =
      (List.range N).map (fun (k : ℕ) => (k : Int)) := by
    rw [List.map_map]
    rfl
  have h := (leafRecs_accel_perm N pBounds hN).map Prod.snd
  rw [hmap2] at h
  rw [leafIds_eq_map_leafRecs]
  refine h.nodup_iff.mpr ?_
  refine List.Nodup.map ?_ (List.nodup_range N)
  intro a b hab
  simp only at hab
  exact_mod_cast hab

theorem leafRecs_accel_valid (N : Nat) (pBounds : Nat → Box) (hN : 1 ≤ N) :
    ∀ p ∈ leafRecs (build_bvh_accel N pBounds), p.2 ≠ -1 := by
  rintro ⟨b, i⟩ hmem
  obtain ⟨k, _, _, rfl⟩ := (leafRecs_accel_mem N pBounds hN b i).mp hmem
  omega

theorem accel_wfBounds (N : Nat) (pBounds : Nat → Box) :
    wfBounds (build_bvh_accel N pBounds) :=
  build_wfBounds N (mkPrims N pBounds) 0 (le_of_eq (mkPrims_length N pBounds))

/-- Every leaf holding an in-range hit is visited by the loop, provided the
box test is conservative on the leaf bounds and monotone under union, and the
tree is well formed. -/
theorem hit_leaf_visited (bh : Box → Bool) (pr : Int → Option Isect)
    (tmin tmax : ℚ)
    (hmL : ∀ b1 b2, bh b1 = true → bh (BoxAddBox b1 b2) = true)
    (hmR : ∀ b1 b2, bh b2 = true → bh (BoxAddBox b1 b2) = true) :
    ∀ t : BVHNode, wfBounds t →
      (∀ bb ii, (bb, ii) ∈ leafRecs t →
        ∀ h, prim_ray_intersect pr tmin tmax ii = some h → bh bb = true) →
      (∀ p ∈ leafRecs t, p.2 ≠ -1) →
      ∀ i h, i ∈ leafIds t → prim_ray_intersect pr tmin tmax i = some h →
        i ∈ visitedLeaves bh t := by
  intro t
  induction t with
  | leaf b j =>
    intro _ _ hvalid i h hi _
    simp only [leafIds, List.mem_singleton] at hi
    subst hi
    have hj : i ≠ -1 := hvalid (b, i) (by simp [leafRecs])
    simp [visitedLeaves, hj]
  | node l r b j ihl ihr =>
    intro hwf hcons hvalid i h hi hh
    obtain ⟨hbb, hwfl, hwfr⟩ := hwf
    have hconsl : ∀ bb ii, (bb, ii) ∈ leafRecs l →
        ∀ h', prim_ray_intersect pr tmin tmax ii = some h' → bh bb = true := by
      intro bb ii hmem h' hh'
      exact hcons bb ii (by simp [leafRecs, List.mem_append, hmem]) h' hh'
    have hconsr : ∀ bb ii, (bb, ii) ∈ leafRecs r →
        ∀ h', prim_ray_intersect pr tmin tmax ii = some h' → bh bb = true := by
      intro bb ii hmem h' hh'
      exact hcons bb ii (by simp [leafRecs, List.mem_append, hmem]) h' hh'
    have hvalidl : ∀ p ∈ leafRecs l, p.2 ≠ -1 := by
      intro p hp
      exact hvalid p (by simp [leafRecs, List.mem_append, hp])
    have hvalidr : ∀ p ∈ leafRecs r, p.2 ≠ -1 := by
      intro p hp
      exact hvalid p (by simp [leafRecs, List.mem_append, hp])
    simp only [leafIds, List.mem_append] at hi
    simp only [visitedLeaves, List.mem_append]
    rcases hi with hil | hir
    · left
      obtain ⟨bb, hbbmem⟩ := leafIds_mem_leafRecs l i hil
      have hbhit : bh bb = true := hconsl bb i hbbmem h hh
      have hup : bh (nodeBounds l) = true :=
        box_hit_up bh hmL hmR l hwfl bb i hbbmem hbhit
      rw [hup]
      exact ihl hwfl hconsl hvalidl i h hil hh
    · right
      obtain ⟨bb, hbbmem⟩ := leafIds_mem_leafRecs r i hir
      have hbhit : bh bb = true := hconsr bb i hbbmem h hh
      have hup : bh (nodeBounds r) = true :=
        box_hit_up bh hmL hmR r hwfr bb i hbbmem hbhit
      rw [hup]
      exact ihr hwfr hconsr hvalidr i h hir hh

theorem leafRecs_node (l r : BVHNode) (b : Box) (i : Int) :
    leafRecs (BVHNode.node l r b i) = leafRecs l ++ leafRecs r := rfl

theorem visitedLeaves_node (bh : Box → Bool) (l r : BVHNode) (b : Box) (i : Int) :
    visitedLeaves bh (BVHNode.node l r b i) =
      visitedLeavesRec bh l ++ visitedLeavesRec bh r := by
  simp only [visitedLeaves]
  rw [visitedLeavesRec_eq, visitedLeavesRec_eq]
  cases bh (nodeBounds l) <;> cases bh (nodeBounds r) <;> rfl

/-- When every leaf box of a subtree fails the ray-box test, the recursive
visit set is empty: no leaf is ever descended into. -/
theorem visitedLeavesRec_nil_of_miss (bh : Box → Bool) :
    ∀ t : BVHNode, (∀ p ∈ leafRecs t, bh p.1 = false) →
      visitedLeavesRec bh t = [] := by
  intro t
  induction t with
  | leaf b i =>
    intro hmiss
    have hb : bh b = false := hmiss (b, i) (by simp [leafRecs])
    simp [visitedLeavesRec, hb]
  | node l r b i ihl ihr =>
    intro hmiss
    have hl : visitedLeavesRec bh l = [] := by
      refine ihl ?_
      intro p hp
      exact hmiss p (by rw [leafRecs_node]; exact List.mem_append.mpr (Or.inl hp))
    have hr : visitedLeavesRec bh r = [] := by
      refine ihr ?_
      intro p hp
      exact hmiss p (by rw [leafRecs_node]; exact List.mem_append.mpr (Or.inr hp))
    cases hb : bh b
    · simp [visitedLeavesRec, hb]
    · simp [visitedLeavesRec, hb, hl, hr]

/-- With at least two primitives, the built root is an internal node with the
`-1` sentinel. -/
theorem build_root_node :
    ∀ fuel (prims : List Prim) (axis : Nat), 2 ≤ prims.length →
      prims.length ≤ fuel →
      ∃ l r b, build_bvh fuel prims axis = BVHNode.node l r b (-1) := by
  intro fuel prims axis h2 hlen
  match fuel, prims with
  | fuel + 1, p0 :: p1 :: rest => exact ⟨_, _, _, rfl⟩
  | 0, p0 :: p1 :: rest => simp at hlen
  | _, [] => simp at h2
  | _, [p] => simp at h2

/-- The list-level hit sets of the two visit orders agree on well-formed trees
with a conservative, union-monotone box test: the only difference between the
two traversals' visit sets is the root box test, and a pruned root admits no
hits. -/
theorem hits_V_eq_Vrec (bh : Box → Bool) (pr : Int → Option Isect)
    (tmin tmax : ℚ) (t : BVHNode) (hwf : wfBounds t)
    (hmL : ∀ b1 b2, bh b1 = true → bh (BoxAddBox b1 b2) = true)
    (hmR : ∀ b1 b2, bh b2 = true → bh (BoxAddBox b1 b2) = true)
    (hcons : ∀ bb ii, (bb, ii) ∈ leafRecs t →
      ∀ h, prim_ray_intersect pr tmin tmax ii = some h → bh bb = true) :
    hitsOf pr tmin tmax (visitedLeavesRec bh t) =
      hitsOf pr tmin tmax (visitedLeaves bh t) := by
  cases hb : bh (nodeBounds t)
  · have hVrec : visitedLeavesRec bh t = [] := by
      rw [visitedLeavesRec_eq, hb]
    have hnil : hitsOf pr tmin tmax (visitedLeaves bh t) = [] := by
      rw [List.eq_nil_iff_forall_not_mem]
      intro x hx
      obtain ⟨i, hiV, hip⟩ := (mem_hitsOf pr tmin tmax _ x).mp hx
      have hiL := visitedLeaves_subset bh t i hiV
      obtain ⟨bb, hbb⟩ := leafIds_mem_leafRecs t i hiL
      have hup := box_hit_up bh hmL hmR t hwf bb i hbb (hcons bb i hbb x hip)
      rw [hup] at hb
      exact absurd hb (by simp)
    rw [hVrec, hnil]
    rfl
  · have hVrec : visitedLeavesRec bh t = visitedLeaves bh t := by
      rw [visitedLeavesRec_eq, hb]
    rw [hVrec]

/-- Allocation bookkeeping for `build_bvh` under failing `MEM_ALLOC`:
`attempts` counts calls to `new_bvhnode`, `succs` the nodes actually
allocated, `freed` the nodes passed to `MEM_FREE` (the C failure paths of
`build_bvh` free nothing, so `freed` never moves). -/
structure AllocState where
  attempts : Nat
  succs : Nat
  freed : Nat
deriving DecidableEq

/-- `build_bvh` with allocation modelled: `oracle k` says whether the `k`-th
call to `new_bvhnode` succeeds.  Mirrors the C control flow exactly: the node
is allocated before anything else; if a child build returns NULL the function
returns NULL at once, freeing nothing (neither the node just allocated nor an
already-attached left subtree). -/
def build_bvh_alloc (oracle : Nat → Bool) :
    Nat → List Prim → Nat → AllocState → Option BVHNode × AllocState
  | 0, _, _, s => (none, s)
  | fuel + 1, prims, axis, s =>
    if oracle s.attempts = false then
      (none, ⟨s.attempts + 1, s.succs, s.freed⟩)
    else
      match prims with
      | [] => (some (.leaf ⟨⟨0,0,0⟩, ⟨0,0,0⟩⟩ (-1)),
               ⟨s.attempts + 1, s.succs + 1, s.freed⟩)
      | [p] => (some (.leaf p.bounds p.index),
                ⟨s.attempts + 1, s.succs + 1, s.freed⟩)
      | p0 :: p1 :: rest =>
        match build_bvh_alloc oracle fuel
            (splitL axis (p0 :: p1 :: rest)) (new_axis axis)
            ⟨s.attempts + 1, s.succs + 1, s.freed⟩ with
        | (none, s1) => (none, s1)
        | (some lt, s1) =>
          match build_bvh_alloc oracle fuel
              (splitR axis (p0 :: p1 :: rest)) (new_axis axis) s1 with
          | (none, s2) => (none, s2)
          | (some rt, s2) =>
            (some (.node lt rt (BoxAddBox (nodeBounds lt) (nodeBounds rt)) (-1)), s2)

/-- `build_bvh_accel` with allocation modelled: on NULL from `build_bvh` it
returns -1 and leaves the root unbuilt (`none`); nothing allocated by
`build_bvh` is freed on that path (only the two temporary record arrays are,
which are not nodes). -/
def build_bvh_accel_alloc (oracle : Nat → Bool) (N : Nat) (pBounds : Nat → Box)
    (s : AllocState) : Int × Option BVHNode × AllocState :=
  match build_bvh_alloc oracle N (mkPrims N pBounds) 0 s with
  | (none, s') => (-1, none, s')
  | (some t, s') => (0, some t, s')

/-- No path of `build_bvh` calls `MEM_FREE`: the `freed` counter never moves,
so every successfully allocated node of an abandoned partial tree stays
live. -/
theorem build_bvh_alloc_never_frees (oracle : Nat → Bool) :
    ∀ fuel (prims : List Prim) (axis : Nat) (s : AllocState),
      (build_bvh_alloc oracle fuel prims axis s).2.freed = s.freed := by
  intro fuel
  induction fuel with
  | zero => intro prims axis s; rfl
  | succ fuel ih =>
    intro prims axis s
    by_cases ho : oracle s.attempts = false
    · have hstep : build_bvh_alloc oracle (fuel + 1) prims axis s =
          (none, ⟨s.attempts + 1, s.succs, s.freed⟩) := by
        simp [build_bvh_alloc, ho]
      rw [hstep]
    · rw [Bool.not_eq_false] at ho
      match prims with
      | [] =>
        have hstep : build_bvh_alloc oracle (fuel + 1) [] axis s =
            (some (.leaf ⟨⟨0,0,0⟩, ⟨0,0,0⟩⟩ (-1)),
             ⟨s.attempts + 1, s.succs + 1, s.freed⟩) := by
          simp [build_bvh_alloc, ho]
        rw [hstep]
      | [p] =>
        have hstep : build_bvh_alloc oracle (fuel + 1) [p] axis s =
            (some (.leaf p.bounds p.index),
             ⟨s.attempts + 1, s.succs + 1, s.freed⟩) := by
          simp [build_bvh_alloc, ho]
        rw [hstep]
      | p0 :: p1 :: rest =>
        have h1 := ih (splitL axis (p0 :: p1 :: rest)) (new_axis axis)
          ⟨s.attempts + 1, s.succs + 1, s.freed⟩
        rcases hL : build_bvh_alloc oracle fuel (splitL axis (p0 :: p1 :: rest))
          (new_axis axis) ⟨s.attempts + 1, s.succs + 1, s.freed⟩ with ⟨tL, s1⟩
        rw [hL] at h1
        cases tL with
        | none =>
          have hstep : build_bvh_alloc oracle (fuel + 1) (p0 :: p1 :: rest) axis s =
              (none, s1) := by
            simp [build_bvh_alloc, ho, hL]
          rw [hstep]
          exact h1
        | some lt =>
          have h2 := ih (splitR axis (p0 :: p1 :: rest)) (new_axis axis) s1
          rcases hR : build_bvh_alloc oracle fuel (splitR axis (p0 :: p1 :: rest))
            (new_axis axis) s1 with ⟨tR, s2⟩
          rw [hR] at h2
          cases tR with
          | none =>
            have hstep : build_bvh_alloc oracle (fuel + 1) (p0 :: p1 :: rest) axis s =
                (none, s2) := by
              simp [build_bvh_alloc, ho, hL, hR]
            rw [hstep]
            rw [h2, h1]
          | some rt =>
            have hstep : build_bvh_alloc oracle (fuel + 1) (p0 :: p1 :: rest) axis s =
                (some (.node lt rt (BoxAddBox (nodeBounds lt) (nodeBounds rt)) (-1)),
                 s2) := by
              simp [build_bvh_alloc, ho, hL, hR]
            rw [hstep]
            rw [h2, h1]

/-! ## Concrete fixtures used by witnesses and counterexamples -/

/-- One unit box for every primitive index. -/
def cxB : Nat → Box := fun _ => ⟨⟨0, 0, 0⟩, ⟨1, 1, 1⟩⟩

/-- Two disjoint boxes with distinct centroids along the x axis. -/
def cx2B : Nat → Box := fun k =>
  if k = 0 then ⟨⟨0, 0, 0⟩, ⟨1, 1, 1⟩⟩ else ⟨⟨2, 0, 0⟩, ⟨3, 1, 1⟩⟩

/-- A ray-box test that hits every box. -/
def bhTrue : Box → Bool := fun _ => true

/-- A ray-box test that misses every box. -/
def bhFalse : Box → Bool := fun _ => false

/-- A primitive set that never reports a hit. -/
def prNone : Int → Option Isect := fun _ => none

/-- Primitive 0 reports a hit at `t = 1`, everything else misses. -/
def prHit1 : Int → Option Isect := fun i => if i = 0 then some ⟨1, 5⟩ else none

/-- Primitive 0 reports a hit exactly at `t = FLT_MAX`. -/
def prHitFLT : Int → Option Isect := fun i =>
  if i = 0 then some ⟨FLT_MAX, 3⟩ else none

/-- Primitives 0 and 1 report hits at exactly the same `t = 1` with different
payloads. -/
def prTie : Int → Option Isect := fun i =>
  if i = 0 then some ⟨1, 10⟩ else if i = 1 then some ⟨1, 20⟩ else none

/-- An allocator for which only the first `new_bvhnode` call succeeds. -/
def failOracle : Nat → Bool := fun n => decide (n = 0)

/-! ## Claims -/

/-- C9: for every primitive pointer array and every range `[begin, end)` with
`end - begin >= 2` (any centroid values, including all keys equal along the
split axis), `find_median` returns an index strictly between `begin` and
`end`, so both recursive partitions passed to `build_bvh` are nonempty and no
zero-length range is ever built. -/
theorem C9_median_interior (prims : List Prim) (b e axis : Nat) (h : b + 2 ≤ e) :
    b < find_median prims b e axis ∧ find_median prims b e axis < e :=
  ⟨find_median_gt prims b e axis h, find_median_lt prims b e axis h⟩

theorem C9_median_interior_witness :
    0 + 2 ≤ 2 ∧ 0 < find_median [] 0 2 0 ∧ find_median [] 0 2 0 < 2 :=
  ⟨by norm_num, (C9_median_interior [] 0 2 0 (by norm_num)).1,
   (C9_median_interior [] 0 2 0 (by norm_num)).2⟩

/-- C5: a successful build from `N >= 1` primitives produces a strict binary
tree with exactly `N` leaves and `N - 1` internal nodes, each original
primitive index appearing in exactly one leaf; for `N = 1` the root is a leaf
directly referencing the primitive and no split is performed. -/
theorem C5_tree_counts (N : Nat) (pBounds : Nat → Box) (hN : 1 ≤ N) :
    leafCount (build_bvh_accel N pBounds) = N ∧
    internalCount (build_bvh_accel N pBounds) = N - 1 ∧
    (∀ k, k < N → (leafIds (build_bvh_accel N pBounds)).count ((k : Int)) = 1) ∧
    (N = 1 → build_bvh_accel N pBounds = BVHNode.leaf (pBounds 0) 0) := by
  have hcounts := build_counts N (mkPrims N pBounds) 0 (mkPrims_ne_nil N pBounds hN)
    (le_of_eq (mkPrims_length N pBounds))
  rw [mkPrims_length] at hcounts
  refine ⟨hcounts.1, hcounts.2, ?_, ?_⟩
  · intro k hk
    exact List.count_eq_one_of_mem (leafIds_accel_nodup N pBounds hN)
      ((mem_leafIds_accel N pBounds hN _).mpr ⟨k, hk, rfl⟩)
  · intro h1
    subst h1
    rfl

theorem C5_tree_counts_witness :
    1 ≤ 1 ∧
    (leafCount (build_bvh_accel 1 cxB) = 1 ∧
     internalCount (build_bvh_accel 1 cxB) = 1 - 1 ∧
     (∀ k : ℕ, k < 1 → (leafIds (build_bvh_accel 1 cxB)).count ((k : Int)) = 1) ∧
     (1 = 1 → build_bvh_accel 1 cxB = BVHNode.leaf (cxB 0) 0)) :=
  ⟨le_refl 1, C5_tree_counts 1 cxB (le_refl 1)⟩

/-- C4: every node of a built tree satisfies the structural invariant: it is
either a leaf (both children NULL, `prim_id` not the `-1` sentinel, bounds
exactly the referenced primitive's bounds) or internal (both children present,
`prim_id = -1`, bounds exactly the union of its children's bounds, no
padding); `is_bvh_leaf` decides which. -/
theorem C4_structural_invariant (N : Nat) (pBounds : Nat → Box) (hN : 1 ≤ N) :
    ∀ t ∈ subnodes (build_bvh_accel N pBounds),
      (is_bvh_leaf t = true ↔ ∃ b i, t = BVHNode.leaf b i) ∧
      (∀ b i, t = BVHNode.leaf b i →
        i ≠ -1 ∧ ∃ k, k < N ∧ i = (k : Int) ∧ b = pBounds k) ∧
      (∀ l r b i, t = BVHNode.node l r b i →
        i = -1 ∧ b = BoxAddBox (nodeBounds l) (nodeBounds r)) := by
  intro t ht
  have hleafpart : ∀ b i, t = BVHNode.leaf b i →
      i ≠ -1 ∧ ∃ k, k < N ∧ i = (k : Int) ∧ b = pBounds k := by
    rintro b i rfl
    have hmem : (b, i) ∈ leafRecs (build_bvh_accel N pBounds) :=
      (leaf_mem_subnodes_iff _ b i).mp ht
    obtain ⟨k, hk, hb, hi⟩ := (leafRecs_accel_mem N pBounds hN b i).mp hmem
    refine ⟨?_, k, hk, hi, hb⟩
    rw [hi]
    omega
  refine ⟨?_, hleafpart, ?_⟩
  · constructor
    · intro hl
      cases t with
      | leaf b i => exact ⟨b, i, rfl⟩
      | node l r b i => simp [is_bvh_leaf] at hl
    · rintro ⟨b, i, rfl⟩
      have hne := (hleafpart b i rfl).1
      simp [is_bvh_leaf, hne]
  · rintro l r b i rfl
    exact build_internal_invariant N (mkPrims N pBounds) 0
      (le_of_eq (mkPrims_length N pBounds)) l r b i ht

theorem C4_structural_invariant_witness :
    1 ≤ 1 ∧
    (∀ t ∈ subnodes (build_bvh_accel 1 cxB),
      (is_bvh_leaf t = true ↔ ∃ b i, t = BVHNode.leaf b i) ∧
      (∀ b i, t = BVHNode.leaf b i →
        i ≠ -1 ∧ ∃ k : ℕ, k < 1 ∧ i = (k : Int) ∧ b = cxB k) ∧
      (∀ l r b i, t = BVHNode.node l r b i →
        i = -1 ∧ b = BoxAddBox (nodeBounds l) (nodeBounds r))) :=
  ⟨le_refl 1, C4_structural_invariant 1 cxB (le_refl 1)⟩

/-- C3: for every tree the builder produces from `N >= 1` primitives (any
count a C `int`, and far beyond: any `N <= 2^62`) and every ray query, the
loop's stack stays strictly below the 64-entry capacity: the peak depth after
any push is at most 62, so every `push_node` writes within `node[64]` and the
`assert(stack->depth < BVH_STACKSIZE)` never fires.  The bound holds because
`find_median` puts at most `(n + 1) / 2` primitives in the left part of every
split, so at most `log2 N` right subtrees are ever pending. -/
theorem C3_stack_bounded (N : Nat) (pBounds : Nat → Box) (bh : Box → Bool)
    (pr : Int → Option Isect) (tmin tmax : ℚ)
    (hN : 1 ≤ N) (hsize : N ≤ 2 ^ 62) :
    (intersect_bvh_loop bh pr tmin tmax (build_bvh_accel N pBounds)).maxDepth < 64 := by
  have h1 := intersect_bvh_loop_maxd bh pr tmin tmax (build_bvh_accel N pBounds)
  have h2 : bnd (build_bvh_accel N pBounds) ≤ stkBound N := by
    have h := bnd_build N (mkPrims N pBounds) 0 (le_of_eq (mkPrims_length N pBounds))
    rw [mkPrims_length] at h
    exact h
  have h3 := stkBound_le_of_le_pow 62 N hsize
  omega

theorem C3_stack_bounded_witness :
    1 ≤ 1 ∧ 1 ≤ 2 ^ 62 ∧
    (intersect_bvh_loop bhTrue prNone 0 1 (build_bvh_accel 1 cxB)).maxDepth < 64 :=
  ⟨le_refl 1, by norm_num,
   C3_stack_bounded 1 cxB bhTrue prNone 0 1 (le_refl 1) (by norm_num)⟩

/-- C10: when a query returns no hit, the caller's `Intersection` output
buffer is left completely unmodified: `intersect_bvh_accel` (which takes the
`intersect_bvh_loop` path) stores `*isect = *isect_min` only under
`if (hit)`. -/
theorem C10_no_hit_no_write (bh : Box → Bool) (pr : Int → Option Isect)
    (tmin tmax : ℚ) (root : BVHNode) (isect : Isect)
    (h : (intersect_bvh_accel bh pr tmin tmax root isect).1 = false) :
    (intersect_bvh_accel bh pr tmin tmax root isect).2 = isect := by
  have h' : (intersect_bvh_loop bh pr tmin tmax root).hit = false := h
  simp [intersect_bvh_accel, h']

theorem C10_no_hit_no_write_witness :
    (intersect_bvh_accel bhTrue prNone 0 2 (build_bvh_accel 1 cxB) ⟨9, 9⟩).1 = false ∧
    (intersect_bvh_accel bhTrue prNone 0 2 (build_bvh_accel 1 cxB) ⟨9, 9⟩).2 = ⟨9, 9⟩ := by
  have hflag : (intersect_bvh_accel bhTrue prNone 0 2 (build_bvh_accel 1 cxB) ⟨9, 9⟩).1 =
      false := by
    norm_num [intersect_bvh_accel, intersect_bvh_loop, intersect_bvh_loop_aux,
      build_bvh_accel, mkPrims, mkPrim, build_bvh, bvh_size, is_bvh_leaf,
      nodePrimId, scan_step, prim_ray_intersect, prNone, cxB]
  exact ⟨hflag, C10_no_hit_no_write bhTrue prNone 0 2 (build_bvh_accel 1 cxB) ⟨9, 9⟩ hflag⟩

/-- C7 (code-bug evidence): two primitives, allocator succeeding on the first
`new_bvhnode` call (the root) and failing on the second (the left child).
`build_bvh_accel` reports the error (`-1`) and the index stays unbuilt
(root `none`) as the claim says, but the node allocated first is never freed:
the final state records 2 allocation attempts, 1 successful allocation and 0
frees, so one live node leaks — no failure path of `build_bvh` calls
`MEM_FREE` (see `build_bvh_alloc_never_frees`), contradicting "every node of
the partially built subtree already allocated is released". -/
theorem C7_oom_leak_eval :
    build_bvh_accel_alloc failOracle 2 cxB ⟨0, 0, 0⟩ = (-1, none, ⟨2, 1, 0⟩) := by
  norm_num [build_bvh_accel_alloc, build_bvh_alloc, mkPrims, mkPrim, cxB,
    failOracle, splitL, splitR, median_of, find_median, fm_loop, sort_by,
    insert_by, primLE, cAxis, new_axis, primAt, List.range_succ, List.range_zero,
    List.map_cons, List.map_nil, List.map_append]

/-- C6: every hit a query returns satisfies `tmin <= t_hit <= tmax`, and a
primitive intersect result with `t_hit` outside the closed interval is
rejected by `prim_ray_intersect` and never accepted as the query result. -/
theorem C6_hit_within_interval (bh : Box → Bool) (pr : Int → Option Isect)
    (tmin tmax : ℚ) (root : BVHNode) (isect : Isect) :
    ((intersect_bvh_accel bh pr tmin tmax root isect).1 = true →
      tmin ≤ (intersect_bvh_accel bh pr tmin tmax root isect).2.t_hit ∧
      (intersect_bvh_accel bh pr tmin tmax root isect).2.t_hit ≤ tmax) ∧
    (∀ i h, pr i = some h → (h.t_hit < tmin ∨ tmax < h.t_hit) →
      prim_ray_intersect pr tmin tmax i = none) := by
  constructor
  · intro hflag
    have hflag' : (intersect_bvh_loop bh pr tmin tmax root).hit = true := hflag
    have hspec := (intersect_bvh_loop_spec bh pr tmin tmax root).1
    have hacc2 : (intersect_bvh_accel bh pr tmin tmax root isect).2 =
        (intersect_bvh_loop bh pr tmin tmax root).best := by
      simp [intersect_bvh_accel, hflag']
    have h1 := congrArg Prod.fst hspec
    have h2 := congrArg Prod.snd hspec
    simp only at h1 h2
    have hrange := scan_leaves_range pr tmin tmax (visitedLeaves bh root)
      (false, ⟨FLT_MAX, 0⟩) (by intro hcontra; exact absurd hcontra (by simp))
    rw [hacc2, h2]
    exact hrange (by rw [← h1]; exact hflag')
  · intro i h hpr hout
    simp only [prim_ray_intersect, hpr]
    rw [if_pos hout]

theorem C6_hit_within_interval_witness :
    (0 : ℚ) ≤ (intersect_bvh_accel bhTrue prHit1 0 2
        (build_bvh_accel 1 cxB) ⟨9, 9⟩).2.t_hit ∧
    (intersect_bvh_accel bhTrue prHit1 0 2
        (build_bvh_accel 1 cxB) ⟨9, 9⟩).2.t_hit ≤ 2 :=
  (C6_hit_within_interval bhTrue prHit1 0 2 (build_bvh_accel 1 cxB) ⟨9, 9⟩).1
    (by norm_num [intersect_bvh_accel, intersect_bvh_loop, intersect_bvh_loop_aux,
      build_bvh_accel, mkPrims, mkPrim, build_bvh, bvh_size, is_bvh_leaf,
      nodePrimId, scan_step, prim_ray_intersect, prHit1, cxB, FLT_MAX])

/-- C8 counterexample: with a single primitive whose box the ray never enters
(the box test rejects every box), the loop still stands on the root leaf
without ever testing its box, so it visits that leaf and calls the primitive
set's intersect once; with a primitive reporting an in-range hit there, the
query even returns a hit.  This refutes "returns no hit and visits zero
leaves; intersect is never called" for single-leaf trees. -/
theorem C8_counterexample :
    (∀ k : ℕ, k < 1 → bhFalse (cxB k) = false) ∧
    (intersect_bvh_loop bhFalse prHit1 0 2 (build_bvh_accel 1 cxB)).visited = [0] ∧
    (intersect_bvh_loop bhFalse prHit1 0 2 (build_bvh_accel 1 cxB)).hit = true := by
  refine ⟨fun k _ => rfl, ?_, ?_⟩ <;>
    norm_num [intersect_bvh_loop, intersect_bvh_loop_aux, build_bvh_accel,
      mkPrims, mkPrim, build_bvh, bvh_size, is_bvh_leaf, nodePrimId, scan_step,
      prim_ray_intersect, prHit1, cxB, FLT_MAX]

/-- C8 (amended): for every built tree with `N >= 2` primitives — so the root
is an internal node — and every ray whose box test misses every primitive's
bounds, the query returns no hit, visits zero leaves (the primitive source's
intersect is never called), and leaves the output buffer untouched.  For
`N = 1` the root itself is a leaf and the loop, which never tests the current
node's box, visits it and calls intersect once (see the counterexample). -/
theorem C8_miss_all_boxes (N : Nat) (pBounds : Nat → Box) (bh : Box → Bool)
    (pr : Int → Option Isect) (tmin tmax : ℚ) (isect : Isect)
    (hN : 2 ≤ N) (hmiss : ∀ k, k < N → bh (pBounds k) = false) :
    (intersect_bvh_loop bh pr tmin tmax (build_bvh_accel N pBounds)).hit = false ∧
    (intersect_bvh_loop bh pr tmin tmax (build_bvh_accel N pBounds)).visited = [] ∧
    (intersect_bvh_accel bh pr tmin tmax (build_bvh_accel N pBounds) isect).2 =
      isect := by
  obtain ⟨l, r, bb, hroot⟩ := build_root_node N (mkPrims N pBounds) 0
    (by rw [mkPrims_length]; omega) (le_of_eq (mkPrims_length N pBounds))
  have hroot' : build_bvh_accel N pBounds = BVHNode.node l r bb (-1) := hroot
  have hmiss' : ∀ p ∈ leafRecs (build_bvh_accel N pBounds), bh p.1 = false := by
    rintro ⟨b, i⟩ hp
    obtain ⟨k, hk, hb, _⟩ := (leafRecs_accel_mem N pBounds (by omega) b i).mp hp
    rw [hb]
    exact hmiss k hk
  have hVl : visitedLeavesRec bh l = [] := by
    refine visitedLeavesRec_nil_of_miss bh l ?_
    intro p hp
    refine hmiss' p ?_
    rw [hroot', leafRecs_node]
    exact List.mem_append.mpr (Or.inl hp)
  have hVr : visitedLeavesRec bh r = [] := by
    refine visitedLeavesRec_nil_of_miss bh r ?_
    intro p hp
    refine hmiss' p ?_
    rw [hroot', leafRecs_node]
    exact List.mem_append.mpr (Or.inr hp)
  have hV : visitedLeaves bh (build_bvh_accel N pBounds) = [] := by
    rw [hroot', visitedLeaves_node, hVl, hVr]
    rfl
  have hspec := intersect_bvh_loop_spec bh pr tmin tmax (build_bvh_accel N pBounds)
  rw [hV] at hspec
  rw [scan_leaves_nil] at hspec
  have hhit : (intersect_bvh_loop bh pr tmin tmax (build_bvh_accel N pBounds)).hit =
      false := by
    have := congrArg Prod.fst hspec.1
    simpa using this
  refine ⟨hhit, by simpa using hspec.2, ?_⟩
  simp [intersect_bvh_accel, hhit]

theorem C8_miss_all_boxes_witness :
    2 ≤ 2 ∧ (∀ k : ℕ, k < 2 → bhFalse (cx2B k) = false) ∧
    ((intersect_bvh_loop bhFalse prNone 0 2 (build_bvh_accel 2 cx2B)).hit = false ∧
     (intersect_bvh_loop bhFalse prNone 0 2 (build_bvh_accel 2 cx2B)).visited = [] ∧
     (intersect_bvh_accel bhFalse prNone 0 2 (build_bvh_accel 2 cx2B) ⟨9, 9⟩).2 =
       ⟨9, 9⟩) :=
  ⟨le_refl 2, fun k _ => rfl,
   C8_miss_all_boxes 2 cx2B bhFalse prNone 0 2 ⟨9, 9⟩ (le_refl 2) (fun k _ => rfl)⟩

/-- C1 counterexample: with `ray.tmax = FLT_MAX`, a conservative box test
(`bhTrue` hits every box) and one primitive reporting a hit exactly at
`t_hit = FLT_MAX`, `prim_ray_intersect` accepts the hit as in-range
(`tmin <= t_hit <= tmax`), yet the query returns no hit: the loop's
"no hit yet" sentinel is `FLT_MAX`, and acceptance requires `t_hit`
strictly below it.  So a query does not always return the nearest
in-range hit. -/
theorem C1_counterexample :
    prim_ray_intersect prHitFLT 0 FLT_MAX 0 = some ⟨FLT_MAX, 3⟩ ∧
    (0 : ℚ) ≤ FLT_MAX ∧
    (intersect_bvh_accel bhTrue prHitFLT 0 FLT_MAX
      (build_bvh_accel 1 cxB) ⟨9, 9⟩).1 = false := by
  refine ⟨?_, by norm_num [FLT_MAX], ?_⟩
  · norm_num [prim_ray_intersect, prHitFLT, FLT_MAX]
  · norm_num [intersect_bvh_accel, intersect_bvh_loop, intersect_bvh_loop_aux,
      build_bvh_accel, mkPrims, mkPrim, build_bvh, bvh_size, is_bvh_leaf,
      nodePrimId, scan_step, prim_ray_intersect, prHitFLT, cxB, FLT_MAX]

/-- C1 (amended): for every built tree and every ray with
`tmax < FLT_MAX` (so no in-range hit collides with the loop's `FLT_MAX`
sentinel), with the box test conservative on the primitives' bounds and
monotone under box union (the collaborator contract of spec section 4.3),
the query returns a hit iff some primitive reports an in-range hit, and then
the returned `Intersection` is a reported in-range hit of minimal `t_hit`,
and it is the first hit attaining that minimum in traversal order (left
subtree first) — every hit scanned before it is strictly farther — so the
result does not depend on how subtrees were pushed and visited. -/
theorem C1_nearest_hit (N : Nat) (pBounds : Nat → Box) (bh : Box → Bool)
    (pr : Int → Option Isect) (tmin tmax : ℚ) (isect : Isect)
    (hN : 1 ≤ N) (htmax : tmax < FLT_MAX)
    (hmL : ∀ b1 b2, bh b1 = true → bh (BoxAddBox b1 b2) = true)
    (hmR : ∀ b1 b2, bh b2 = true → bh (BoxAddBox b1 b2) = true)
    (hcons : ∀ k h, k < N → prim_ray_intersect pr tmin tmax (k : Int) = some h →
      bh (pBounds k) = true) :
    ((intersect_bvh_accel bh pr tmin tmax (build_bvh_accel N pBounds) isect).1 = true ↔
      ∃ k h, k < N ∧ prim_ray_intersect pr tmin tmax (k : Int) = some h) ∧
    ((intersect_bvh_accel bh pr tmin tmax (build_bvh_accel N pBounds) isect).1 = true →
      (∃ k, k < N ∧ prim_ray_intersect pr tmin tmax (k : Int) =
        some (intersect_bvh_accel bh pr tmin tmax (build_bvh_accel N pBounds) isect).2) ∧
      (∀ k h, k < N → prim_ray_intersect pr tmin tmax (k : Int) = some h →
        (intersect_bvh_accel bh pr tmin tmax (build_bvh_accel N pBounds) isect).2.t_hit ≤
          h.t_hit) ∧
      (∃ pre suf,
        hitsOf pr tmin tmax (visitedLeaves bh (build_bvh_accel N pBounds)) =
          pre ++ (intersect_bvh_accel bh pr tmin tmax
            (build_bvh_accel N pBounds) isect).2 :: suf ∧
        ∀ x ∈ pre,
          (intersect_bvh_accel bh pr tmin tmax
            (build_bvh_accel N pBounds) isect).2.t_hit < x.t_hit)) := by
  have hwf := accel_wfBounds N pBounds
  have hvalid := leafRecs_accel_valid N pBounds hN
  have hconsL : ∀ bb ii, (bb, ii) ∈ leafRecs (build_bvh_accel N pBounds) →
      ∀ h, prim_ray_intersect pr tmin tmax ii = some h → bh bb = true := by
    intro bb ii hmem h hh
    obtain ⟨k, hk, hb, hi⟩ := (leafRecs_accel_mem N pBounds hN bb ii).mp hmem
    subst hb
    subst hi
    exact hcons k h hk hh
  have hts' : ∀ h ∈ hitsOf pr tmin tmax
      (visitedLeaves bh (build_bvh_accel N pBounds)), h.t_hit < FLT_MAX := by
    intro h hmem
    obtain ⟨i, _, hw⟩ := (mem_hitsOf pr tmin tmax _ h).mp hmem
    exact lt_of_le_of_lt (prim_ray_intersect_range pr tmin tmax i h hw).2 htmax
  have lchar := loop_char bh pr tmin tmax (build_bvh_accel N pBounds) hts'
  have hfA : ∀ k h, k < N → prim_ray_intersect pr tmin tmax (k : Int) = some h →
      h ∈ hitsOf pr tmin tmax (visitedLeaves bh (build_bvh_accel N pBounds)) := by
    intro k h hk hw
    have hmemIds : (k : Int) ∈ leafIds (build_bvh_accel N pBounds) :=
      (mem_leafIds_accel N pBounds hN _).mpr ⟨k, hk, rfl⟩
    have hvis := hit_leaf_visited bh pr tmin tmax hmL hmR
      (build_bvh_accel N pBounds) hwf hconsL hvalid (k : Int) h hmemIds hw
    exact (mem_hitsOf pr tmin tmax _ h).mpr ⟨(k : Int), hvis, hw⟩
  have hfB : ∀ x ∈ hitsOf pr tmin tmax
      (visitedLeaves bh (build_bvh_accel N pBounds)),
      ∃ k, k < N ∧ prim_ray_intersect pr tmin tmax (k : Int) = some x := by
    intro x hx
    obtain ⟨i, hiV, hw⟩ := (mem_hitsOf pr tmin tmax _ x).mp hx
    have hiIds := visitedLeaves_subset bh (build_bvh_accel N pBounds) i hiV
    obtain ⟨k, hk, hik⟩ := (mem_leafIds_accel N pBounds hN i).mp hiIds
    subst hik
    exact ⟨k, hk, hw⟩
  constructor
  · constructor
    · intro hflag
      have hflag' : (intersect_bvh_loop bh pr tmin tmax
          (build_bvh_accel N pBounds)).hit = true := hflag
      have hne := lchar.1.mp hflag'
      match hh : hitsOf pr tmin tmax
          (visitedLeaves bh (build_bvh_accel N pBounds)), hne with
      | x :: xs, _ =>
        obtain ⟨k, hk, hw⟩ := hfB x (by rw [hh]; exact List.mem_cons_self _ _)
        exact ⟨k, x, hk, hw⟩
    · rintro ⟨k, h, hk, hw⟩
      have hne : hitsOf pr tmin tmax
          (visitedLeaves bh (build_bvh_accel N pBounds)) ≠ [] := by
        intro hnil
        have := hfA k h hk hw
        rw [hnil] at this
        exact absurd this (by simp)
      exact lchar.1.mpr hne
  · intro hflag
    have hflag' : (intersect_bvh_loop bh pr tmin tmax
        (build_bvh_accel N pBounds)).hit = true := hflag
    have hne := lchar.1.mp hflag'
    have hacc2 : (intersect_bvh_accel bh pr tmin tmax
        (build_bvh_accel N pBounds) isect).2 =
        (intersect_bvh_loop bh pr tmin tmax (build_bvh_accel N pBounds)).best := by
      simp [intersect_bvh_accel, hflag']
    have hbest := lchar.2 hflag'
    rw [hacc2, hbest]
    refine ⟨?_, ?_, ?_⟩
    · exact hfB _ (firstMin_mem _ hne)
    · intro k h hk hw
      exact firstMin_le _ hne h (hfA k h hk hw)
    · exact firstMin_first _ hne

theorem C1_nearest_hit_witness :
    1 ≤ 1 ∧ (2 : ℚ) < FLT_MAX ∧
    (((intersect_bvh_accel bhTrue prHit1 0 2 (build_bvh_accel 1 cxB) ⟨9, 9⟩).1 = true ↔
      ∃ (k : ℕ) (h : Isect), k < 1 ∧ prim_ray_intersect prHit1 0 2 (k : Int) = some h) ∧
    ((intersect_bvh_accel bhTrue prHit1 0 2 (build_bvh_accel 1 cxB) ⟨9, 9⟩).1 = true →
      (∃ k : ℕ, k < 1 ∧ prim_ray_intersect prHit1 0 2 (k : Int) =
        some (intersect_bvh_accel bhTrue prHit1 0 2 (build_bvh_accel 1 cxB) ⟨9, 9⟩).2) ∧
      (∀ (k : ℕ) (h : Isect), k < 1 → prim_ray_intersect prHit1 0 2 (k : Int) = some h →
        (intersect_bvh_accel bhTrue prHit1 0 2
          (build_bvh_accel 1 cxB) ⟨9, 9⟩).2.t_hit ≤ h.t_hit) ∧
      (∃ pre suf,
        hitsOf prHit1 0 2 (visitedLeaves bhTrue (build_bvh_accel 1 cxB)) =
          pre ++ (intersect_bvh_accel bhTrue prHit1 0 2
            (build_bvh_accel 1 cxB) ⟨9, 9⟩).2 :: suf ∧
        ∀ x ∈ pre,
          (intersect_bvh_accel bhTrue prHit1 0 2
            (build_bvh_accel 1 cxB) ⟨9, 9⟩).2.t_hit < x.t_hit))) :=
  ⟨le_refl 1, by norm_num [FLT_MAX],
   C1_nearest_hit 1 cxB bhTrue prHit1 0 2 ⟨9, 9⟩ (le_refl 1)
     (by norm_num [FLT_MAX]) (fun _ _ _ => rfl) (fun _ _ _ => rfl)
     (fun _ _ _ _ => rfl)⟩

/-- C2 counterexample: two primitives whose hits have exactly equal `t_hit`.
Both traversals report a hit, but the loop returns the first-found hit
(payload 10) while the recursive formulation — whose merge writes the output
buffer only on a strict comparison — leaves the caller's buffer untouched and
returns whatever was there (here `⟨99, 7⟩`).  The two formulations do not
return the same `Intersection` at exact ties. -/
theorem C2_counterexample :
    (intersect_bvh_recursive bhTrue prTie 0 2 (build_bvh_accel 2 cx2B) ⟨99, 7⟩).1 =
      (intersect_bvh_accel bhTrue prTie 0 2 (build_bvh_accel 2 cx2B) ⟨99, 7⟩).1 ∧
    (intersect_bvh_recursive bhTrue prTie 0 2 (build_bvh_accel 2 cx2B) ⟨99, 7⟩).2 =
      ⟨99, 7⟩ ∧
    (intersect_bvh_accel bhTrue prTie 0 2 (build_bvh_accel 2 cx2B) ⟨99, 7⟩).2 =
      ⟨1, 10⟩ ∧
    (⟨99, 7⟩ : Isect) ≠ ⟨1, 10⟩ := by
  have hbuild : build_bvh_accel 2 cx2B =
      BVHNode.node (BVHNode.leaf ⟨⟨0, 0, 0⟩, ⟨1, 1, 1⟩⟩ 0)
        (BVHNode.leaf ⟨⟨2, 0, 0⟩, ⟨3, 1, 1⟩⟩ 1)
        ⟨⟨0, 0, 0⟩, ⟨3, 1, 1⟩⟩ (-1) := by
    norm_num [build_bvh_accel, mkPrims, mkPrim, build_bvh, cx2B, splitL, splitR,
      median_of, find_median, fm_loop, sort_by, insert_by, primLE, cAxis,
      new_axis, primAt, BoxAddBox, nodeBounds, List.range_succ, List.range_zero,
      List.map_cons, List.map_nil, List.map_append]
  rw [hbuild]
  refine ⟨?_, ?_, ?_, by simp⟩ <;>
    norm_num [intersect_bvh_recursive, intersect_bvh_accel, intersect_bvh_loop,
      intersect_bvh_loop_aux, bvh_size, stack_size, is_bvh_leaf, nodePrimId,
      nodeBounds, scan_step, prim_ray_intersect, prim_ray_write, rec_merge,
      rec_clamp, prTie, bhTrue, FLT_MAX]

/-- C2 (amended): on every built tree, with `tmax < FLT_MAX`, a box test
conservative on primitive bounds and monotone under union, and a primitive
set whose hits on distinct primitives never share an exact `t_hit`, the
iterative stack-based traversal and the pure-recursive traversal return the
same hit/no-hit flag and, on a hit, the same `Intersection`.  At exactly
equal `t_hit` the flags still agree, but the recursive merge leaves the
output buffer unwritten while the loop returns the earlier-found hit (see
the counterexample), so tie-freedom is required for the "same Intersection"
part. -/
theorem C2_traversals_agree (N : Nat) (pBounds : Nat → Box) (bh : Box → Bool)
    (pr : Int → Option Isect) (tmin tmax : ℚ) (isect : Isect)
    (hN : 1 ≤ N) (htmax : tmax < FLT_MAX)
    (hmL : ∀ b1 b2, bh b1 = true → bh (BoxAddBox b1 b2) = true)
    (hmR : ∀ b1 b2, bh b2 = true → bh (BoxAddBox b1 b2) = true)
    (hcons : ∀ k h, k < N → prim_ray_intersect pr tmin tmax (k : Int) = some h →
      bh (pBounds k) = true)
    (hdist : ∀ i j hi hj, i ≠ j → prim_ray_intersect pr tmin tmax i = some hi →
      prim_ray_intersect pr tmin tmax j = some hj → hi.t_hit ≠ hj.t_hit) :
    (intersect_bvh_recursive bh pr tmin tmax (build_bvh_accel N pBounds) isect).1 =
      (intersect_bvh_accel bh pr tmin tmax (build_bvh_accel N pBounds) isect).1 ∧
    ((intersect_bvh_accel bh pr tmin tmax (build_bvh_accel N pBounds) isect).1 = true →
      (intersect_bvh_recursive bh pr tmin tmax (build_bvh_accel N pBounds) isect).2 =
        (intersect_bvh_accel bh pr tmin tmax (build_bvh_accel N pBounds) isect).2) := by
  have hwf := accel_wfBounds N pBounds
  have hconsL : ∀ bb ii, (bb, ii) ∈ leafRecs (build_bvh_accel N pBounds) →
      ∀ h, prim_ray_intersect pr tmin tmax ii = some h → bh bb = true := by
    intro bb ii hmem h hh
    obtain ⟨k, hk, hb, hi⟩ := (leafRecs_accel_mem N pBounds hN bb ii).mp hmem
    subst hb
    subst hi
    exact hcons k h hk hh
  have hts : ∀ i h, prim_ray_intersect pr tmin tmax i = some h →
      h.t_hit < FLT_MAX := by
    intro i h hw
    exact lt_of_le_of_lt (prim_ray_intersect_range pr tmin tmax i h hw).2 htmax
  have hts' : ∀ h ∈ hitsOf pr tmin tmax
      (visitedLeaves bh (build_bvh_accel N pBounds)), h.t_hit < FLT_MAX := by
    intro h hmem
    obtain ⟨i, _, hw⟩ := (mem_hitsOf pr tmin tmax _ h).mp hmem
    exact hts i h hw
  have hnodup := leafIds_accel_nodup N pBounds hN
  obtain ⟨r1, r2, r3⟩ := rec_spec bh pr tmin tmax hts hdist
    (build_bvh_accel N pBounds) isect hnodup
  have hbridge := hits_V_eq_Vrec bh pr tmin tmax (build_bvh_accel N pBounds)
    hwf hmL hmR hconsL
  have lchar := loop_char bh pr tmin tmax (build_bvh_accel N pBounds) hts'
  have hflageq : (intersect_bvh_recursive bh pr tmin tmax
      (build_bvh_accel N pBounds) isect).1 =
      (intersect_bvh_loop bh pr tmin tmax (build_bvh_accel N pBounds)).hit := by
    cases ha : (intersect_bvh_recursive bh pr tmin tmax
        (build_bvh_accel N pBounds) isect).1 <;>
      cases hb : (intersect_bvh_loop bh pr tmin tmax
        (build_bvh_accel N pBounds)).hit
    · rfl
    · exfalso
      have hne := lchar.1.mp hb
      rw [← hbridge] at hne
      rw [r1.mpr hne] at ha
      exact absurd ha (by simp)
    · exfalso
      have hne := r1.mp ha
      rw [hbridge] at hne
      rw [lchar.1.mpr hne] at hb
      exact absurd hb (by simp)
    · rfl
  refine ⟨hflageq, ?_⟩
  intro hflag
  have hloop : (intersect_bvh_loop bh pr tmin tmax
      (build_bvh_accel N pBounds)).hit = true := hflag
  have hrec1 : (intersect_bvh_recursive bh pr tmin tmax
      (build_bvh_accel N pBounds) isect).1 = true := by
    rw [hflageq]
    exact hloop
  have hne := lchar.1.mp hloop
  have hacc2 : (intersect_bvh_accel bh pr tmin tmax
      (build_bvh_accel N pBounds) isect).2 =
      (intersect_bvh_loop bh pr tmin tmax (build_bvh_accel N pBounds)).best := by
    simp [intersect_bvh_accel, hloop]
  have hbest := lchar.2 hloop
  obtain ⟨hrmem, hrle⟩ := r3 hrec1
  rw [hbridge] at hrmem hrle
  rw [hacc2, hbest]
  exact min_hits_unique pr tmin tmax hdist
    (visitedLeaves bh (build_bvh_accel N pBounds)) _ _
    hrmem (firstMin_mem _ hne) hrle (firstMin_le _ hne)

theorem C2_traversals_agree_witness :
    1 ≤ 1 ∧ (2 : ℚ) < FLT_MAX ∧
    ((intersect_bvh_recursive bhTrue prHit1 0 2 (build_bvh_accel 1 cxB) ⟨9, 9⟩).1 =
      (intersect_bvh_accel bhTrue prHit1 0 2 (build_bvh_accel 1 cxB) ⟨9, 9⟩).1 ∧
    ((intersect_bvh_accel bhTrue prHit1 0 2 (build_bvh_accel 1 cxB) ⟨9, 9⟩).1 = true →
      (intersect_bvh_recursive bhTrue prHit1 0 2 (build_bvh_accel 1 cxB) ⟨9, 9⟩).2 =
        (intersect_bvh_accel bhTrue prHit1 0 2 (build_bvh_accel 1 cxB) ⟨9, 9⟩).2)) := by
  have hdist : ∀ i j hi hj, i ≠ j → prim_ray_intersect prHit1 0 2 i = some hi →
      prim_ray_intersect prHit1 0 2 j = some hj → hi.t_hit ≠ hj.t_hit := by
    intro i j hi hj hne hhi hhj
    have hi0 : i = 0 := by
      by_contra h0
      simp [prim_ray_intersect, prHit1, h0] at hhi
    have hj0 : j = 0 := by
      by_contra h0
      simp [prim_ray_intersect, prHit1, h0] at hhj
    exact absurd (hi0.trans hj0.symm) hne
  exact ⟨le_refl 1, by norm_num [FLT_MAX],
    C2_traversals_agree 1 cxB bhTrue prHit1 0 2 ⟨9, 9⟩ (le_refl 1)
      (by norm_num [FLT_MAX]) (fun _ _ _ => rfl) (fun _ _ _ => rfl)
      (fun _ _ _ _ => rfl) hdist⟩

end FjBVH
